import Mathlib

/-!
Verification of the job-change monitor (`monitor.py`).

The program scrapes two HTML pages into name-to-job-code mappings
(Python `dict[str, str]`), merges them, diffs the result against a
persisted JSON snapshot, builds notification messages, and persists the
reconciled roster.

Python dicts are embedded as association lists (`alist`) preserving
insertion order: `d[k] = v` updates an existing key in place (keeping its
position) and appends a fresh key at the end, exactly as CPython does.
JSON values are embedded as the inductive `JVal`; floating-point numbers
(and escape sequences denoting lone UTF-16 surrogates, which Lean strings
cannot hold) are outside the model — the program itself never writes
either.
-/

set_option linter.unusedVariables false

namespace Monitor

/-! ## Definitions -/

/-- Association list with string keys: the embedding of a Python `dict`. -/
abbrev alist (α : Type) := List (String × α)

/-- `d.get(key)`: first entry with the given key (keys are unique in real dicts). -/
def alget {α : Type} : alist α → String → Option α
  | [], _ => none
  | (k, v) :: rest, key => if k = key then some v else alget rest key

/-- `d[key] = val`: update in place if present (keeping position), else append. -/
def alinsert {α : Type} : alist α → String → α → alist α
  | [], key, val => [(key, val)]
  | (k, v) :: rest, key, val =>
    if k = key then (k, val) :: rest else (k, v) :: alinsert rest key val

/-- `a.update(b)`: fold every entry of `b` into `a`. -/
def alupdate {α : Type} (a b : alist α) : alist α :=
  b.foldl (fun acc p => alinsert acc p.1 p.2) a

/-! ### Job registry (`JOB_MAP`), lines 12-31 of `monitor.py` -/

/-- The allow-list of job codes, in source order. -/
def JOB_MAP : alist String :=
  [("220", "Templar"), ("224", "Master Breeder"), ("221", "Mercenary"),
   ("223", "Oracle"), ("222", "Cardinal"),
   ("120", "Berserker"), ("121", "Marksman"), ("124", "Beast Master"),
   ("123", "War Kahuna"), ("122", "Magus"),
   ("324", "Overlord"), ("320", "Slayer"), ("321", "Deadeye"),
   ("322", "Void Mage"), ("323", "Corruptor")]

/-- `JOB_MAP.get(code)`. -/
def jobMapGet (code : String) : Option String := alget JOB_MAP code

/-- `code in JOB_MAP`. -/
def inJobMap (code : String) : Bool := (jobMapGet code).isSome

/-! ### Job-code extraction from an image path, lines 68-74

`JOB_CODE_RE = re.compile(r"/(\d{3})\.jpg")` together with
`extract_job_code_from_img_src`: `re.search` finds the leftmost position
where a literal `/` is followed by exactly three digits and `.jpg`, and
returns the three digits.  `\d` is modelled as the ASCII digits (a
non-ASCII digit char would be absorbed by the registry check that always
follows a successful extraction in the source). -/

/-- Try to match `/(\d\d\d)\.jpg` at the head of the character list. -/
def matchJobAt : List Char → Option String
  | '/' :: a :: b :: c :: '.' :: 'j' :: 'p' :: 'g' :: _ =>
    if a.isDigit && b.isDigit && c.isDigit then some (String.mk [a, b, c]) else none
  | _ => none

/-- Leftmost match of the job-code pattern (the `re.search` scan). -/
def findJobCode : List Char → Option String
  | [] => none
  | c :: rest =>
    match matchJobAt (c :: rest) with
    | some code => some code
    | none => findJobCode rest

/-- `extract_job_code_from_img_src(src)`. -/
def extract_job_code_from_img_src (src : String) : Option String :=
  findJobCode src.data

/-! ### Table extraction, lines 76-110

The BeautifulSoup document is embedded at the granularity the source
consumes it: a list of `tbody` elements, each a list of `tr` rows, each a
list of `td` cells.  A cell carries the visible text as returned by
`get_text(strip=True)` and, for the first `img` element inside it (if
any), the value of `img.get("src", "")`. -/

structure Cell where
  text : String
  img : Option String
deriving Repr, DecidableEq

/-- A parsed HTML document: tbodies, then rows, then cells. -/
abbrev Doc := List (List (List Cell))

/-- A name-to-job-code roster (`dict[str, str]`). -/
abbrev Dict := alist String

/-- The shared row logic of `parse_online` / `parse_ranking`: layout gives
the minimum cell count and the name / job-icon cell indices. -/
def rowEntry (minCells nameIdx imgIdx : Nat) (tr : List Cell) : Option (String × String) :=
  if tr.length < minCells then none
  else
    let name := (tr.getD nameIdx ⟨"", none⟩).text
    match (tr.getD imgIdx ⟨"", none⟩).img with
    | none => none
    | some src =>
      match extract_job_code_from_img_src src with
      | none => none
      | some code => if inJobMap code then some (name, code) else none

/-- Processing of a single row: skip, or assign `current[name] = code`. -/
def rowStep (minCells nameIdx imgIdx : Nat) (cur : Dict) (tr : List Cell) : Dict :=
  match rowEntry minCells nameIdx imgIdx tr with
  | none => cur
  | some p => alinsert cur p.1 p.2

/-- The double loop over tbodies and rows. -/
def parseTable (minCells nameIdx imgIdx : Nat) (doc : Doc) : Dict :=
  doc.foldl (fun cur tbody => tbody.foldl (rowStep minCells nameIdx imgIdx) cur) []

/-- `parse_online(html)`: name in cell 0, job image in cell 2, at least 3 cells. -/
def parse_online (doc : Doc) : Dict := parseTable 3 0 2 doc

/-- `parse_ranking(html)`: name in cell 1, job image in cell 3, at least 4 cells. -/
def parse_ranking (doc : Doc) : Dict := parseTable 4 1 3 doc

/-! ### Merge, lines 112-116 -/

/-- `merge_dicts(a, b)`: copy of `a` updated with `b` (`b` wins on conflicts). -/
def merge_dicts (a b : Dict) : Dict := alupdate a b

/-! ### Message builder, lines 129-133 -/

/-- `build_message(quote, player, old_code, new_code)`. -/
def build_message (quote player old_code new_code : String) : String :=
  let old_name := (jobMapGet old_code).getD old_code
  let new_name := (jobMapGet new_code).getD new_code
  let pre := if quote ≠ "" then quote ++ " " else ""
  pre ++ player ++ " rebirthed from " ++ old_name ++ " to " ++ new_name ++ "."

/-- The message format as §4.7 of the specification words it: decorative
text (with a trailing space) when present, then the player name, then the
job names resolved through the registry with the raw code as fallback. -/
def messageSpec (quote player old_code new_code : String) : String :=
  (if quote ≠ "" then quote ++ " " else "") ++ player ++ " rebirthed from " ++
    (match jobMapGet old_code with | some nm => nm | none => old_code) ++ " to " ++
    (match jobMapGet new_code with | some nm => nm | none => new_code) ++ "."

/-! ### Transition detection, lines 151-158

The loop `for name, new_code in current_total.items()` with
`old_code = before.get(name)`, `if old_code and old_code != new_code`,
`if old_code in JOB_MAP and new_code in JOB_MAP`, specialised to
string-valued prior rosters (`dict[str, str]`, the roster type the
program persists; on a string `old_code` Python truthiness is
`old_code != ""`).  `changesLoop` below is the same loop over an
arbitrarily-valued prior dict, as `run` executes it. -/

abbrev Transition := String × String × String

/-- One iteration of the change-detection loop, for a string-valued prior roster. -/
def detStep (before : Dict) (acc : List Transition) (name new_code : String) :
    List Transition :=
  match alget before name with
  | none => acc
  | some old =>
    if old ≠ "" ∧ old ≠ new_code then
      if inJobMap old && inJobMap new_code then acc ++ [(name, old, new_code)] else acc
    else acc

/-- The change-detection loop over `current_total` in iteration order. -/
def detectLoop (before : Dict) (acc : List Transition) : Dict → List Transition
  | [] => acc
  | (name, new_code) :: rest => detectLoop before (detStep before acc name new_code) rest

/-- All transitions emitted by the loop of lines 151-158. -/
def detectChanges (before current : Dict) : List Transition :=
  detectLoop before [] current

/-- The per-entry decision of the loop, as an optional transition. -/
def changeOf (before : Dict) (name new_code : String) : Option Transition :=
  match alget before name with
  | none => none
  | some old =>
    if old ≠ "" ∧ old ≠ new_code then
      if inJobMap old && inJobMap new_code then some (name, old, new_code) else none
    else none

/-! ### JSON values

The embedding of the Python data universe held in `data/state.json`:
`None`, booleans, integers, strings, lists and string-keyed dicts. -/

inductive JVal where
  | null : JVal
  | bool (b : Bool) : JVal
  | num (n : Int) : JVal
  | str (s : String) : JVal
  | arr (elems : List JVal) : JVal
  | obj (fields : List (String × JVal)) : JVal

/-! Well-formed JSON value: every object has pairwise-distinct keys,
as any value produced by Python's `dict` necessarily has. -/

mutual

def jwf : JVal → Bool
  | .null => true
  | .bool _ => true
  | .num _ => true
  | .str _ => true
  | .arr es => jwfList es
  | .obj fs => decide ((fs.map Prod.fst).Nodup) && jwfFields fs

def jwfList : List JVal → Bool
  | [] => true
  | e :: es => jwf e && jwfList es

def jwfFields : alist JVal → Bool
  | [] => true
  | m :: ms => jwf m.2 && jwfFields ms

end

/-! ### Serialization: `json.dumps(state, indent=2, ensure_ascii=False)`,
line 49 of `monitor.py`. -/

def spaces (n : Nat) : List Char := List.replicate n ' '

def hexDigitChar (n : Nat) : Char :=
  if n < 10 then Char.ofNat ('0'.toNat + n) else Char.ofNat ('a'.toNat + (n - 10))

/-- Escape of one character, as `json.dumps` with `ensure_ascii=False`
does it: quote, backslash and control characters are escaped (shorthand
escapes where they exist, `\u00XX` otherwise); everything else is kept. -/
def escCharL (c : Char) : List Char :=
  if c = '"' then ['\\', '"']
  else if c = '\\' then ['\\', '\\']
  else if c = '\n' then ['\\', 'n']
  else if c = '\r' then ['\\', 'r']
  else if c = '\t' then ['\\', 't']
  else if c.toNat = 8 then ['\\', 'b']
  else if c.toNat = 12 then ['\\', 'f']
  else if c.toNat < 32 then
    ['\\', 'u', '0', '0', hexDigitChar (c.toNat / 16), hexDigitChar (c.toNat % 16)]
  else [c]

def escBody : List Char → List Char
  | [] => []
  | c :: cs => escCharL c ++ escBody cs

/-- A JSON string literal. -/
def dumpStr (s : String) : List Char := '"' :: (escBody s.data ++ ['"'])

/-- Decimal digits of a natural number (Python `repr` of a non-negative
int); 48 is the code of the digit 0. -/
def natChars (n : Nat) : List Char :=
  if n = 0 then ['0']
  else (Nat.digits 10 n).reverse.map (fun d => Char.ofNat (48 + d))

/-- Decimal representation of an integer. -/
def intChars (n : Int) : List Char :=
  if n < 0 then '-' :: natChars n.natAbs else natChars n.natAbs

/-! Pretty-printing with `indent=2` (separators `','` and `': '`):
containers open with a newline, indent items by two extra spaces, and
close on a fresh line at the enclosing indent; empty containers print
inline. -/

mutual

def dumpVal : JVal → Nat → List Char
  | .null, _ => ['n', 'u', 'l', 'l']
  | .bool true, _ => ['t', 'r', 'u', 'e']
  | .bool false, _ => ['f', 'a', 'l', 's', 'e']
  | .num n, _ => intChars n
  | .str s, _ => dumpStr s
  | .arr [], _ => ['[', ']']
  | .arr (e :: es), lvl =>
    '[' :: '\n' :: (spaces (2 * (lvl + 1)) ++ dumpVal e (lvl + 1) ++
      dumpTailElems es (lvl + 1) ++ '\n' :: (spaces (2 * lvl) ++ [']']))
  | .obj [], _ => ['\x7b', '\x7d']
  | .obj (m :: ms), lvl =>
    '\x7b' :: '\n' :: (spaces (2 * (lvl + 1)) ++ dumpMember m (lvl + 1) ++
      dumpTailMembers ms (lvl + 1) ++ '\n' :: (spaces (2 * lvl) ++ ['\x7d']))

def dumpMember : String × JVal → Nat → List Char
  | (k, v), lvl => dumpStr k ++ ':' :: ' ' :: dumpVal v lvl

def dumpTailElems : List JVal → Nat → List Char
  | [], _ => []
  | e :: es, lvl => ',' :: '\n' :: (spaces (2 * lvl) ++ dumpVal e lvl ++ dumpTailElems es lvl)

def dumpTailMembers : alist JVal → Nat → List Char
  | [], _ => []
  | m :: ms, lvl => ',' :: '\n' :: (spaces (2 * lvl) ++ dumpMember m lvl ++ dumpTailMembers ms lvl)

end

/-- `json.dumps(v, indent=2, ensure_ascii=False)`. -/
def dumps (v : JVal) : String := String.mk (dumpVal v 0)

/-! ### Parsing: `json.loads`, line 44 of `monitor.py`.

Whitespace is the JSON whitespace set; strings reject raw control
characters (the default `strict=True`); objects are built by repeated
dict assignment, so a duplicate key keeps its first position and last
value, as in CPython.  The fuel argument only bounds nesting; one unit
is spent per parsed value, so `length + 1` fuel can never run out. -/

def isWsChar (c : Char) : Bool := c = ' ' || c = '\t' || c = '\n' || c = '\r'

def skipWs : List Char → List Char
  | [] => []
  | c :: rest => if isWsChar c then skipWs rest else c :: rest

def hexVal (c : Char) : Option Nat :=
  if '0' ≤ c ∧ c ≤ '9' then some (c.toNat - '0'.toNat)
  else if 'a' ≤ c ∧ c ≤ 'f' then some (c.toNat - 'a'.toNat + 10)
  else if 'A' ≤ c ∧ c ≤ 'F' then some (c.toNat - 'A'.toNat + 10)
  else none

/-- Decoded character of a shorthand escape `\e`. -/
def escDecode (e : Char) : Option Char :=
  if e = '"' then some '"'
  else if e = '\\' then some '\\'
  else if e = '/' then some '/'
  else if e = 'b' then some '\x08'
  else if e = 'f' then some '\x0c'
  else if e = 'n' then some '\n'
  else if e = 'r' then some '\r'
  else if e = 't' then some '\t'
  else none

/-- Value of four hex digits, most significant first. -/
def hex4 (h1 h2 h3 h4 : Char) : Option Nat :=
  match hexVal h1 with
  | none => none
  | some a =>
    match hexVal h2 with
    | none => none
    | some b =>
      match hexVal h3 with
      | none => none
      | some c =>
        match hexVal h4 with
        | none => none
        | some d => some (((a * 16 + b) * 16 + c) * 16 + d)

/-! JSON string body after the opening quote: content and remainder.
`parseStr` consumes plain characters (raw control characters are refused,
the default `strict=True`); `parseEsc` handles the character after a
backslash; `parseUEsc` a `\uXXXX` escape, where a high surrogate must be
followed by a low one handled by `parseSurrogate` (a pair denotes the
combined code point, as in CPython). -/

mutual

def parseStr : List Char → Option (List Char × List Char)
  | [] => none
  | c :: rest =>
    if c = '"' then some ([], rest)
    else if c = '\\' then parseEsc rest
    else if c.toNat < 32 then none
    else (parseStr rest).map (fun p => (c :: p.1, p.2))

def parseEsc : List Char → Option (List Char × List Char)
  | [] => none
  | e :: rest2 =>
    if e = 'u' then parseUEsc rest2
    else
      match escDecode e with
      | some d => (parseStr rest2).map (fun p => (d :: p.1, p.2))
      | none => none

def parseUEsc : List Char → Option (List Char × List Char)
  | h1 :: h2 :: h3 :: h4 :: rest3 =>
    (match hex4 h1 h2 h3 h4 with
     | none => none
     | some n =>
       if 0xD800 ≤ n ∧ n < 0xDC00 then parseSurrogate n rest3
       else if 0xDC00 ≤ n ∧ n < 0xE000 then none
       else (parseStr rest3).map (fun p => (Char.ofNat n :: p.1, p.2)))
  | _ => none

def parseSurrogate : Nat → List Char → Option (List Char × List Char)
  | n, b1 :: u1 :: g1 :: g2 :: g3 :: g4 :: rest4 =>
    if b1 = '\\' ∧ u1 = 'u' then
      match hex4 g1 g2 g3 g4 with
      | none => none
      | some n2 =>
        if 0xDC00 ≤ n2 ∧ n2 < 0xE000 then
          (parseStr rest4).map (fun p =>
            (Char.ofNat (0x10000 + (n - 0xD800) * 0x400 + (n2 - 0xDC00)) :: p.1, p.2))
        else none
    else none
  | _, _ => none

end

def digitVal (c : Char) : Nat := c.toNat - '0'.toNat

def takeDigits : List Char → List Char × List Char
  | [] => ([], [])
  | c :: rest =>
    if c.isDigit then
      let p := takeDigits rest
      (c :: p.1, p.2)
    else ([], c :: rest)

/-- Value of a decimal digit string, most significant first. -/
def chsVal (ds : List Char) : Nat := ds.foldl (fun acc c => acc * 10 + digitVal c) 0

/-- A fraction or exponent would make the literal a float, which is
outside the model; such input is treated as unparseable. -/
def noFloatNext : List Char → Bool
  | [] => true
  | c :: _ => !(c = '.' || c = 'e' || c = 'E')

/-- Integer literal without sign: `0` or a nonzero leading digit (the
JSON number grammar `0|[1-9][0-9]*`). -/
def parsePosNum : List Char → Option (Nat × List Char)
  | [] => none
  | c :: rest =>
    if c = '0' then (if noFloatNext rest then some (0, rest) else none)
    else if c.isDigit then
      (if noFloatNext (takeDigits rest).2 then
        some (chsVal (c :: (takeDigits rest).1), (takeDigits rest).2)
      else none)
    else none

def parseNum : List Char → Option (JVal × List Char)
  | [] => none
  | c :: rest =>
    if c = '-' then (parsePosNum rest).map (fun p => (JVal.num (-(p.1 : Int)), p.2))
    else (parsePosNum (c :: rest)).map (fun p => (JVal.num (p.1 : Int), p.2))

mutual

def parseVal : Nat → List Char → Option (JVal × List Char)
  | 0, _ => none
  | fuel + 1, s =>
    match s with
    | [] => none
    | c :: rest =>
      if c = '"' then (parseStr rest).map (fun p => (.str (String.mk p.1), p.2))
      else if c = '\x7b' then
        (match skipWs rest with
         | [] => (parseMembers fuel [] []).map (fun p => (.obj p.1, p.2))
         | c2 :: rest2 =>
           if c2 = '\x7d' then some (.obj [], rest2)
           else (parseMembers fuel [] (c2 :: rest2)).map (fun p => (.obj p.1, p.2)))
      else if c = '[' then
        (match skipWs rest with
         | [] => (parseElems fuel []).map (fun p => (.arr p.1, p.2))
         | c2 :: rest2 =>
           if c2 = ']' then some (.arr [], rest2)
           else (parseElems fuel (c2 :: rest2)).map (fun p => (.arr p.1, p.2)))
      else if c = 'n' then
        (match rest with
         | 'u' :: 'l' :: 'l' :: rest2 => some (.null, rest2)
         | _ => none)
      else if c = 't' then
        (match rest with
         | 'r' :: 'u' :: 'e' :: rest2 => some (.bool true, rest2)
         | _ => none)
      else if c = 'f' then
        (match rest with
         | 'a' :: 'l' :: 's' :: 'e' :: rest2 => some (.bool false, rest2)
         | _ => none)
      else parseNum (c :: rest)

def parseElems : Nat → List Char → Option (List JVal × List Char)
  | 0, _ => none
  | fuel + 1, s =>
    match parseVal fuel s with
    | none => none
    | some (v, r) =>
      match skipWs r with
      | [] => none
      | c :: r2 =>
        if c = ',' then
          match parseElems fuel (skipWs r2) with
          | none => none
          | some (vs, r3) => some (v :: vs, r3)
        else if c = ']' then some ([v], r2)
        else none

def parseMembers : Nat → alist JVal → List Char → Option (alist JVal × List Char)
  | 0, _, _ => none
  | fuel + 1, acc, s =>
    match s with
    | [] => none
    | c :: rest =>
      if c = '"' then
        match parseStr rest with
        | none => none
        | some (kcs, r1) =>
          match skipWs r1 with
          | [] => none
          | c1 :: r2 =>
            if c1 = ':' then
              match parseVal fuel (skipWs r2) with
              | none => none
              | some (v, r3) =>
                match skipWs r3 with
                | [] => none
                | c2 :: r4 =>
                  if c2 = ',' then
                    parseMembers fuel (alinsert acc (String.mk kcs) v) (skipWs r4)
                  else if c2 = '\x7d' then some (alinsert acc (String.mk kcs) v, r4)
                  else none
            else none
      else none

end

/-! Fuel sufficient to parse a dumped value: one unit per value plus one
per container entry. -/

mutual

def pfuel : JVal → Nat
  | .arr es => 1 + pelems es
  | .obj fs => 1 + pmems fs
  | _ => 1

def pelems : List JVal → Nat
  | [] => 0
  | e :: es => 1 + pfuel e + pelems es

def pmems : alist JVal → Nat
  | [] => 0
  | m :: ms => 1 + pfuel m.2 + pmems ms

end

/-- `json.loads(s)`: parse one value surrounded by optional whitespace;
anything else (including trailing data) fails. -/
def parseJson (s : String) : Option JVal :=
  match parseVal ((skipWs s.data).length + 1) (skipWs s.data) with
  | some (v, rest) => if skipWs rest = [] then some v else none
  | none => none

/-! ### Snapshot store, lines 33-49.

The file system is a value `fs : Option String`: `none` when
`data/state.json` does not exist, otherwise its content. -/

/-- `ensure_state()`: creates the file holding an empty object when
missing; the resulting file content. -/
def ensure_state (fs : Option String) : String := fs.getD "\x7b\x7d"

/-- `load_state()`: parse the (ensured) file, falling back to an empty
dict when parsing raises. -/
def load_state (fs : Option String) : JVal :=
  (parseJson (ensure_state fs)).getD (JVal.obj [])

/-- `save_state(state)`: the new file content. -/
def save_state (st : JVal) : String := dumps st

/-! ### The run orchestrator, lines 135-174.

Network fetches are inputs: each is either the parsed document of a
successful response or the exception `requests.raise_for_status` /
transport errors would raise.  `quote` stands for the decorative-text
provider's output.  Notification delivery and dry-run printing are pure
observations (the list of built messages), as §1 of the spec puts the
webhook channel itself out of scope. -/

inductive Source where
  | online : Source
  | ranking : Source
  | both : Source
deriving DecidableEq, Repr

def sourceStr : Source → String
  | .online => "online"
  | .ranking => "ranking"
  | .both => "both"

/-- Python truthiness of a JSON value. -/
def truthy : JVal → Bool
  | .null => false
  | .bool b => b
  | .num n => n != 0
  | .str s => s != ""
  | .arr es => !es.isEmpty
  | .obj fs => !fs.isEmpty

/-- Python `v == s` for a JSON value and a string. -/
def jeqStr : JVal → String → Bool
  | .str t, s => t == s
  | _, _ => false

/-- `state.get(key, default)`: raises `AttributeError` when the loaded
state is not a dict. -/
def pyGet (v : JVal) (key : String) (dflt : JVal) : Except String JVal :=
  match v with
  | .obj fields => .ok ((alget fields key).getD dflt)
  | _ => .error "AttributeError"

/-- Lines 138-140: `if not isinstance(before, dict): before = {}`. -/
def asObjFields : JVal → alist JVal
  | .obj f => f
  | _ => []

/-- One iteration of the change-detection loop as `run` executes it, on a
prior dict of arbitrary JSON values: `old_code in JOB_MAP` raises
`TypeError` on unhashable values (lists, dicts). -/
def changeStep (before : alist JVal) (acc : List Transition) (name new_code : String) :
    Except String (List Transition) :=
  match alget before name with
  | none => .ok acc
  | some old =>
    if truthy old && !(jeqStr old new_code) then
      match old with
      | .str s =>
        .ok (if inJobMap s && inJobMap new_code then acc ++ [(name, s, new_code)] else acc)
      | .arr _ => .error "TypeError: unhashable type"
      | .obj _ => .error "TypeError: unhashable type"
      | _ => .ok acc
    else .ok acc

def changesLoop (before : alist JVal) (acc : List Transition) :
    Dict → Except String (List Transition)
  | [] => .ok acc
  | (name, new_code) :: rest =>
    match changeStep before acc name new_code with
    | .error e => .error e
    | .ok acc2 => changesLoop before acc2 rest

/-- Lines 151-158 as executed by `run`. -/
def computeChanges (before : alist JVal) (current : Dict) : Except String (List Transition) :=
  changesLoop before [] current

/-- Lines 144-146: the online page, when requested. -/
def fetchOnlinePart (source : Source) (fetchO : Except String Doc) :
    Except String Dict :=
  if source = .online ∨ source = .both then
    match fetchO with
    | .error e => .error e
    | .ok d => .ok (merge_dicts [] (parse_online d))
  else .ok []

/-- Lines 147-149: the ranking page, when requested, merged over the
roster collected so far. -/
def fetchRankingPart (source : Source) (c1 : Dict) (fetchR : Except String Doc) :
    Except String Dict :=
  if source = .ranking ∨ source = .both then
    match fetchR with
    | .error e => .error e
    | .ok d => .ok (merge_dicts c1 (parse_ranking d))
  else .ok c1

/-- Lines 142-149: fetch the requested pages and fold the per-source
rosters into `current_total`. -/
def scrapeTotal (source : Source) (fetchO fetchR : Except String Doc) :
    Except String Dict :=
  match fetchOnlinePart source fetchO with
  | .error e => .error e
  | .ok c1 => fetchRankingPart source c1 fetchR

/-- Lines 170-171: `after = dict(before); after.update(current_total)`. -/
def reconcile (before : alist JVal) (current : Dict) : alist JVal :=
  alupdate before (current.map (fun p => (p.1, JVal.str p.2)))

/-- `state[key] = val` (the state is known to be a dict at this point). -/
def jset (v : JVal) (key : String) (x : JVal) : JVal :=
  match v with
  | .obj fields => .obj (alinsert fields key x)
  | other => other

/-- The body of `run` between loading and saving the state: returns the
state to be saved, the detected changes and the built messages. -/
def runCore (source : Source) (fetchO fetchR : Except String Doc) (quote : String)
    (state : JVal) : Except String (JVal × List Transition × List String) :=
  match pyGet state "players" (JVal.obj []) with
  | .error e => .error e
  | .ok players0 =>
    match scrapeTotal source fetchO fetchR with
    | .error e => .error e
    | .ok current_total =>
      match computeChanges (asObjFields players0) current_total with
      | .error e => .error e
      | .ok changes =>
        .ok (jset (jset state "players"
              (JVal.obj (reconcile (asObjFields players0) current_total)))
            "last_run_source" (JVal.str (sourceStr source)),
          changes,
          changes.map (fun c => build_message quote c.1 c.2.1 c.2.2))

/-- `run(source)`: the file content after the run, and either the fatal
error or the delivered messages.  An aborted run leaves the file as
`ensure_state` left it. -/
def run (source : Source) (fetchO fetchR : Except String Doc) (quote : String)
    (fs0 : Option String) : String × Except String (List String) :=
  let fs1 := ensure_state fs0
  let state := load_state fs0
  match runCore source fetchO fetchR quote state with
  | .error e => (fs1, .error e)
  | .ok (st3, _, msgs) => (save_state st3, .ok msgs)

/-- Observer: top-level key of a JSON object. -/
def jTopGet (v : JVal) (key : String) : Option JVal :=
  match v with
  | .obj fields => alget fields key
  | _ => none

/-- Observer: is the value a JSON object (a Python dict)? -/
def isObj : JVal → Bool
  | .obj _ => true
  | _ => false

/-- The skip conditions of claim C4 for a row, given a layout's minimum
cell count and job-icon cell index. -/
def skipsRow (minCells imgIdx : Nat) (tr : List Cell) : Prop :=
  tr.length < minCells
  ∨ (tr.getD imgIdx ⟨"", none⟩).img = none
  ∨ (∃ src, (tr.getD imgIdx ⟨"", none⟩).img = some src ∧
      extract_job_code_from_img_src src = none)
  ∨ (∃ src code, (tr.getD imgIdx ⟨"", none⟩).img = some src ∧
      extract_job_code_from_img_src src = some code ∧ inJobMap code = false)

/-- Guard on what may follow a dumped number: nothing, or a character
that does not extend the numeric literal. -/
def numSafe : List Char → Prop
  | [] => True
  | c :: _ => ¬(c.isDigit = true ∨ c = '.' ∨ c = 'e' ∨ c = 'E')

/-- The hypothesis of claim C5: some requested source page fails to fetch. -/
def fetchFails (source : Source) (fetchO fetchR : Except String Doc) : Prop :=
  ((source = .online ∨ source = .both) ∧ ∃ e, fetchO = .error e)
  ∨ ((source = .ranking ∨ source = .both) ∧ ∃ e, fetchR = .error e)

/-! ## Theorems -/

/-! ### Association-list lemmas -/

@[simp] theorem alget_nil {α : Type} (key : String) : alget ([] : alist α) key = none := rfl

theorem alget_cons {α : Type} (k : String) (v : α) (rest : alist α) (key : String) :
    alget ((k, v) :: rest) key = if k = key then some v else alget rest key := rfl

@[simp] theorem alget_alinsert_self {α : Type} (d : alist α) (k : String) (v : α) :
    alget (alinsert d k v) k = some v := by
  induction d with
  | nil => simp [alinsert, alget]
  | cons p rest ih =>
    obtain ⟨k0, v0⟩ := p
    by_cases h : k0 = k
    · simp [alinsert, alget, h]
    · simp [alinsert, alget, h, ih]

theorem alget_alinsert_ne {α : Type} (d : alist α) (k key : String) (v : α) (h : k ≠ key) :
    alget (alinsert d k v) key = alget d key := by
  induction d with
  | nil => simp [alinsert, alget, h]
  | cons p rest ih =>
    obtain ⟨k0, v0⟩ := p
    by_cases h0 : k0 = k
    · subst h0
      simp [alinsert, alget, h]
    · simp only [alinsert, if_neg h0]
      by_cases h1 : k0 = key
      · simp [alget, h1]
      · simp [alget, h1, ih]

theorem alget_none_iff_not_mem_keys {α : Type} (d : alist α) (key : String) :
    alget d key = none ↔ key ∉ d.map Prod.fst := by
  induction d with
  | nil => simp
  | cons p rest ih =>
    obtain ⟨k0, v0⟩ := p
    by_cases h : k0 = key
    · simp [alget, h]
    · simp [alget, h, ih, Ne.symm h]

theorem alinsert_of_alget_none {α : Type} (d : alist α) (k : String) (v : α)
    (h : alget d k = none) : alinsert d k v = d ++ [(k, v)] := by
  induction d with
  | nil => simp [alinsert]
  | cons p rest ih =>
    obtain ⟨k0, v0⟩ := p
    by_cases h0 : k0 = k
    · simp [alget, h0] at h
    · simp only [alget, if_neg h0] at h
      simp [alinsert, h0, ih h]

theorem keys_alinsert_of_alget_some {α : Type} (d : alist α) (k : String) (v w : α)
    (h : alget d k = some w) :
    (alinsert d k v).map Prod.fst = d.map Prod.fst := by
  induction d with
  | nil => simp [alget] at h
  | cons p rest ih =>
    obtain ⟨k0, v0⟩ := p
    by_cases h0 : k0 = k
    · simp [alinsert, h0]
    · simp only [alget, if_neg h0] at h
      simp [alinsert, h0, ih h]

theorem nodup_keys_alinsert {α : Type} (d : alist α) (k : String) (v : α)
    (h : (d.map Prod.fst).Nodup) : ((alinsert d k v).map Prod.fst).Nodup := by
  cases hg : alget d k with
  | some w => rw [keys_alinsert_of_alget_some d k v w hg]; exact h
  | none =>
    rw [alinsert_of_alget_none d k v hg]
    have hnot : k ∉ d.map Prod.fst := (alget_none_iff_not_mem_keys d k).mp hg
    simp only [List.map_append, List.map_cons, List.map_nil]
    rw [List.nodup_append]
    refine ⟨h, List.nodup_singleton k, ?_⟩
    intro a ha hb
    simp at hb
    subst hb
    exact hnot ha

theorem mem_of_alget_eq_some {α : Type} {d : alist α} {key : String} {v : α}
    (h : alget d key = some v) : (key, v) ∈ d := by
  induction d with
  | nil => simp [alget] at h
  | cons p rest ih =>
    obtain ⟨k0, v0⟩ := p
    by_cases h0 : k0 = key
    · subst h0
      simp [alget] at h
      subst h
      exact List.mem_cons_self _ _
    · simp only [alget, if_neg h0] at h
      exact List.mem_cons_of_mem _ (ih h)

theorem alget_eq_some_of_mem_nodup {α : Type} {d : alist α} {key : String} {v : α}
    (hn : (d.map Prod.fst).Nodup) (h : (key, v) ∈ d) : alget d key = some v := by
  induction d with
  | nil => simp at h
  | cons p rest ih =>
    obtain ⟨k0, v0⟩ := p
    simp only [List.map_cons, List.nodup_cons] at hn
    rcases List.mem_cons.mp h with h1 | h1
    · injection h1 with h1a h1b
      subst h1a
      subst h1b
      simp [alget]
    · have hne : k0 ≠ key := by
        intro he
        subst he
        exact hn.1 (List.mem_map_of_mem Prod.fst h1)
      simp [alget, hne, ih hn.2 h1]

theorem alget_alupdate {α : Type} (a b : alist α) (hb : (b.map Prod.fst).Nodup)
    (key : String) :
    alget (alupdate a b) key =
      match alget b key with
      | some v => some v
      | none => alget a key := by
  induction b generalizing a with
  | nil => simp [alupdate, alget]
  | cons p rest ih =>
    obtain ⟨k0, v0⟩ := p
    simp only [List.map_cons, List.nodup_cons] at hb
    have hrest : alget rest k0 = none :=
      (alget_none_iff_not_mem_keys rest k0).mpr hb.1
    show alget (alupdate (alinsert a k0 v0) rest) key = _
    rw [ih (alinsert a k0 v0) hb.2]
    by_cases h : k0 = key
    · subst h
      simp [alget, hrest]
    · simp [alget, h, alget_alinsert_ne a k0 key v0 h]

theorem nodup_keys_alupdate {α : Type} (a b : alist α)
    (ha : (a.map Prod.fst).Nodup) : ((alupdate a b).map Prod.fst).Nodup := by
  induction b generalizing a with
  | nil => exact ha
  | cons p rest ih =>
    exact ih (alinsert a p.1 p.2) (nodup_keys_alinsert a p.1 p.2 ha)

theorem alupdate_eq_append {α : Type} (a b : alist α)
    (h : ((a.map Prod.fst) ++ (b.map Prod.fst)).Nodup) : alupdate a b = a ++ b := by
  induction b generalizing a with
  | nil => simp [alupdate]
  | cons p rest ih =>
    obtain ⟨k0, v0⟩ := p
    rw [List.nodup_append] at h
    have hk0a : k0 ∉ a.map Prod.fst := by
      intro hmem
      exact h.2.2 hmem (by simp)
    have hins : alinsert a k0 v0 = a ++ [(k0, v0)] :=
      alinsert_of_alget_none a k0 v0 ((alget_none_iff_not_mem_keys a k0).mpr hk0a)
    show alupdate (alinsert a k0 v0) rest = a ++ (k0, v0) :: rest
    rw [hins, ih (a ++ [(k0, v0)])]
    · simp
    · simp only [List.map_append, List.map_cons, List.map_nil]
      rw [List.nodup_append]
      simp only [List.map_cons, List.nodup_cons] at h
      refine ⟨?_, h.2.1.2, ?_⟩
      · rw [List.nodup_append]
        refine ⟨h.1, List.nodup_singleton k0, ?_⟩
        intro a1 ha1 hb1
        simp at hb1
        subst hb1
        exact hk0a ha1
      · intro a1 ha1 hb1
        rcases List.mem_append.mp ha1 with h2 | h2
        · exact h.2.2 h2 (List.mem_cons_of_mem _ hb1)
        · simp at h2
          subst h2
          exact h.2.1.1 hb1

theorem alget_mapval {α β : Type} (d : alist α) (f : α → β) (key : String) :
    alget (d.map (fun p => (p.1, f p.2))) key = (alget d key).map f := by
  induction d with
  | nil => simp
  | cons p rest ih =>
    obtain ⟨k0, v0⟩ := p
    by_cases h : k0 = key
    · simp [alget, h]
    · simp [alget, h, ih]

/-! ### Registry and detection lemmas -/

theorem inJobMap_ne_empty {code : String} (h : inJobMap code = true) : code ≠ "" := by
  intro he
  subst he
  simp [inJobMap, jobMapGet, JOB_MAP, alget] at h

theorem detStep_eq (before : Dict) (acc : List Transition) (name new_code : String) :
    detStep before acc name new_code = acc ++ (changeOf before name new_code).toList := by
  unfold detStep changeOf
  cases alget before name with
  | none => simp
  | some old =>
    by_cases h1 : old ≠ "" ∧ old ≠ new_code
    · simp only [if_pos h1]
      by_cases h2 : inJobMap old && inJobMap new_code
      · simp [h2]
      · simp [h2]
    · simp [if_neg h1]

theorem detectLoop_eq (before : Dict) (current : Dict) (acc : List Transition) :
    detectLoop before acc current =
      acc ++ current.filterMap (fun p => changeOf before p.1 p.2) := by
  induction current generalizing acc with
  | nil => simp [detectLoop]
  | cons p rest ih =>
    obtain ⟨name, new_code⟩ := p
    show detectLoop before (detStep before acc name new_code) rest = _
    rw [ih, detStep_eq]
    cases h : changeOf before name new_code with
    | none => simp [List.filterMap_cons, h]
    | some t => simp [List.filterMap_cons, h]

theorem detectChanges_eq_filterMap (before current : Dict) :
    detectChanges before current =
      current.filterMap (fun p => changeOf before p.1 p.2) := by
  rw [detectChanges, detectLoop_eq]
  simp

theorem changeOf_name {before : Dict} {name new_code : String} {t : Transition}
    (h : changeOf before name new_code = some t) : t.1 = name := by
  unfold changeOf at h
  split at h
  · cases h
  · split at h
    · split at h
      · cases h; rfl
      · cases h
    · cases h

theorem changeOf_eq_some_iff (before : Dict) (n2 v2 name old new_code : String) :
    changeOf before n2 v2 = some (name, old, new_code) ↔
      name = n2 ∧ new_code = v2 ∧ alget before n2 = some old ∧
        old ≠ new_code ∧ inJobMap old = true ∧ inJobMap new_code = true := by
  constructor
  · intro h
    unfold changeOf at h
    split at h
    · cases h
    · rename_i o hg
      split at h
      · rename_i h1
        split at h
        · rename_i h2
          cases h
          simp only [Bool.and_eq_true] at h2
          exact ⟨rfl, rfl, hg, h1.2, h2.1, h2.2⟩
        · cases h
      · cases h
  · rintro ⟨rfl, rfl, hg, hne, ho, hn⟩
    unfold changeOf
    rw [hg]
    show (if old ≠ "" ∧ old ≠ new_code then
        if (inJobMap old && inJobMap new_code) = true then some (name, old, new_code) else none
      else none) = some (name, old, new_code)
    rw [if_pos ⟨inJobMap_ne_empty ho, hne⟩, ho, hn]
    simp

theorem detect_names_sublist (before current : Dict) :
    List.Sublist ((detectChanges before current).map (fun t => t.1))
      (current.map Prod.fst) := by
  rw [detectChanges_eq_filterMap]
  induction current with
  | nil => simp
  | cons p rest ih =>
    cases h : changeOf before p.1 p.2 with
    | none =>
      simp only [List.filterMap_cons, h, List.map_cons]
      exact List.Sublist.cons _ ih
    | some t =>
      simp only [List.filterMap_cons, h, List.map_cons]
      rw [changeOf_name h]
      exact List.Sublist.cons₂ _ ih

/-! ### Extraction lemmas -/

theorem rowEntry_eq_none {minCells nameIdx imgIdx : Nat} {tr : List Cell}
    (h : skipsRow minCells imgIdx tr) : rowEntry minCells nameIdx imgIdx tr = none := by
  unfold rowEntry
  rcases h with h | h | h | h
  · rw [if_pos h]
  · by_cases hl : tr.length < minCells
    · rw [if_pos hl]
    · rw [if_neg hl]
      simp only [h]
  · obtain ⟨src, hs, he⟩ := h
    by_cases hl : tr.length < minCells
    · rw [if_pos hl]
    · rw [if_neg hl]
      simp only [hs, he]
  · obtain ⟨src, code, hs, he, hc⟩ := h
    by_cases hl : tr.length < minCells
    · rw [if_pos hl]
    · rw [if_neg hl]
      simp only [hs, he, hc]
      simp

theorem parseTable_skip (minCells nameIdx imgIdx : Nat)
    (pre : Doc) (rows1 rows2 : List (List Cell)) (post : Doc) (tr : List Cell)
    (h : rowEntry minCells nameIdx imgIdx tr = none) :
    parseTable minCells nameIdx imgIdx (pre ++ (rows1 ++ tr :: rows2) :: post) =
      parseTable minCells nameIdx imgIdx (pre ++ (rows1 ++ rows2) :: post) := by
  unfold parseTable
  simp only [List.foldl_append, List.foldl_cons, rowStep, h]

theorem nodup_keys_rowStep (minCells nameIdx imgIdx : Nat) (cur : Dict) (tr : List Cell)
    (h : (cur.map Prod.fst).Nodup) :
    ((rowStep minCells nameIdx imgIdx cur tr).map Prod.fst).Nodup := by
  unfold rowStep
  cases rowEntry minCells nameIdx imgIdx tr with
  | none => exact h
  | some p => exact nodup_keys_alinsert cur p.1 p.2 h

theorem nodup_keys_rowsFold (minCells nameIdx imgIdx : Nat) (rows : List (List Cell))
    (cur : Dict) (h : (cur.map Prod.fst).Nodup) :
    ((rows.foldl (rowStep minCells nameIdx imgIdx) cur).map Prod.fst).Nodup := by
  induction rows generalizing cur with
  | nil => exact h
  | cons tr rest ih =>
    simp only [List.foldl_cons]
    exact ih _ (nodup_keys_rowStep minCells nameIdx imgIdx cur tr h)

theorem nodup_keys_parseTable (minCells nameIdx imgIdx : Nat) (doc : Doc) :
    ((parseTable minCells nameIdx imgIdx doc).map Prod.fst).Nodup := by
  unfold parseTable
  have haux : ∀ (d : Doc) (cur : Dict), (cur.map Prod.fst).Nodup →
      ((d.foldl (fun c tb => tb.foldl (rowStep minCells nameIdx imgIdx) c) cur).map
        Prod.fst).Nodup := by
    intro d
    induction d with
    | nil => intro cur h; exact h
    | cons tb rest ih =>
      intro cur h
      simp only [List.foldl_cons]
      exact ih _ (nodup_keys_rowsFold minCells nameIdx imgIdx tb cur h)
  exact haux doc [] (by simp)

theorem nodup_keys_fetchOnlinePart (source : Source) (fetchO : Except String Doc)
    (c1 : Dict) (h : fetchOnlinePart source fetchO = .ok c1) :
    (c1.map Prod.fst).Nodup := by
  unfold fetchOnlinePart at h
  split at h
  · cases fetchO with
    | error e => cases h
    | ok d =>
      cases h
      exact nodup_keys_alupdate [] _ (by simp)
  · cases h
    simp

theorem nodup_keys_scrapeTotal (source : Source) (fetchO fetchR : Except String Doc)
    (cur : Dict) (h : scrapeTotal source fetchO fetchR = .ok cur) :
    (cur.map Prod.fst).Nodup := by
  revert h
  unfold scrapeTotal
  cases hf : fetchOnlinePart source fetchO with
  | error e => intro h; cases h
  | ok c1 =>
    show fetchRankingPart source c1 fetchR = Except.ok cur → (cur.map Prod.fst).Nodup
    have hc1 := nodup_keys_fetchOnlinePart source fetchO c1 hf
    unfold fetchRankingPart
    by_cases hr : source = .ranking ∨ source = .both
    · rw [if_pos hr]
      cases fetchR with
      | error e => intro h; cases h
      | ok d =>
        intro h
        cases h
        exact nodup_keys_alupdate c1 _ hc1
    · rw [if_neg hr]
      intro h
      cases h
      exact hc1

/-! ### Claim theorems -/

/-- C1: the transition detection step over a prior roster `before` and a
current roster `current` (with the distinct keys every dict has) emits
`(name, old, new)` if and only if `current` maps `name` to `new`,
`before` maps `name` to `old`, `old ≠ new`, and both codes are registry
members; in particular a name absent from `before` yields no transition;
and the emitted names follow `current`'s insertion-iteration order. -/
theorem c1_transition_detection (before current : Dict)
    (hc : (current.map Prod.fst).Nodup) (name old new_code : String) :
    ((name, old, new_code) ∈ detectChanges before current ↔
      alget current name = some new_code ∧ alget before name = some old ∧
        old ≠ new_code ∧ inJobMap old = true ∧ inJobMap new_code = true)
    ∧ List.Sublist ((detectChanges before current).map (fun t => t.1))
        (current.map Prod.fst) := by
  refine ⟨?_, detect_names_sublist before current⟩
  rw [detectChanges_eq_filterMap, List.mem_filterMap]
  constructor
  · rintro ⟨⟨n2, v2⟩, hmem, hco⟩
    rcases (changeOf_eq_some_iff before n2 v2 name old new_code).mp hco with
      ⟨rfl, rfl, hg, hne, ho, hn⟩
    exact ⟨alget_eq_some_of_mem_nodup hc hmem, hg, hne, ho, hn⟩
  · rintro ⟨hcur, hbef, hne, ho, hn⟩
    exact ⟨(name, new_code), mem_of_alget_eq_some hcur,
      (changeOf_eq_some_iff before name new_code name old new_code).mpr
        ⟨rfl, rfl, hbef, hne, ho, hn⟩⟩

/-- Concrete instance of C1 (scenario A of §8 of the spec). -/
theorem c1_transition_detection_witness :
    ((("Alice", "220", "221") ∈ detectChanges [("Alice", "220")] [("Alice", "221")] ↔
      alget [("Alice", "221")] "Alice" = some "221" ∧
        alget [("Alice", "220")] "Alice" = some "220" ∧
        "220" ≠ "221" ∧ inJobMap "220" = true ∧ inJobMap "221" = true)
    ∧ List.Sublist
        ((detectChanges [("Alice", "220")] [("Alice", "221")]).map (fun t => t.1))
        ([("Alice", "221")].map Prod.fst)) :=
  c1_transition_detection [("Alice", "220")] [("Alice", "221")] (by decide)
    "Alice" "220" "221"

/-- C3: `merge_dicts a b` has exactly the union of the keys, `b` wins on
keys present in both, and a key present in only one side keeps its value. -/
theorem c3_merge_right_biased (a b : Dict) (hb : (b.map Prod.fst).Nodup) :
    (∀ k, (alget (merge_dicts a b) k).isSome
        = ((alget a k).isSome || (alget b k).isSome))
    ∧ (∀ k v, alget b k = some v → alget (merge_dicts a b) k = some v)
    ∧ (∀ k, alget b k = none → alget (merge_dicts a b) k = alget a k) := by
  refine ⟨fun k => ?_, fun k v hv => ?_, fun k hn => ?_⟩
  · unfold merge_dicts
    rw [alget_alupdate a b hb k]
    cases alget b k <;> cases alget a k <;> simp
  · unfold merge_dicts
    rw [alget_alupdate a b hb k, hv]
  · unfold merge_dicts
    rw [alget_alupdate a b hb k, hn]

/-- Concrete instance of C3 (scenario D of §8 of the spec). -/
theorem c3_merge_right_biased_witness :
    ((∀ k, (alget (merge_dicts [("Dave", "220")] [("Dave", "221"), ("Eve", "120")]) k).isSome
        = ((alget [("Dave", "220")] k).isSome
            || (alget [("Dave", "221"), ("Eve", "120")] k).isSome))
    ∧ (∀ k v, alget [("Dave", "221"), ("Eve", "120")] k = some v →
        alget (merge_dicts [("Dave", "220")] [("Dave", "221"), ("Eve", "120")]) k = some v)
    ∧ (∀ k, alget [("Dave", "221"), ("Eve", "120")] k = none →
        alget (merge_dicts [("Dave", "220")] [("Dave", "221"), ("Eve", "120")]) k
          = alget [("Dave", "220")] k)) :=
  c3_merge_right_biased [("Dave", "220")] [("Dave", "221"), ("Eve", "120")] (by decide)

/-- C4: a row with too few cells, no image in the job-icon cell, an
unmatched image path, or an out-of-registry code contributes no entry,
for either layout: extracting a document containing the row equals
extracting the document with the row removed. -/
theorem c4_bad_rows_skipped (tr : List Cell) (pre : Doc)
    (rows1 rows2 : List (List Cell)) (post : Doc) :
    (skipsRow 3 2 tr →
      parse_online (pre ++ (rows1 ++ tr :: rows2) :: post) =
        parse_online (pre ++ (rows1 ++ rows2) :: post))
    ∧ (skipsRow 4 3 tr →
      parse_ranking (pre ++ (rows1 ++ tr :: rows2) :: post) =
        parse_ranking (pre ++ (rows1 ++ rows2) :: post)) :=
  ⟨fun h => parseTable_skip 3 0 2 pre rows1 rows2 post tr (rowEntry_eq_none h),
   fun h => parseTable_skip 4 1 3 pre rows1 rows2 post tr (rowEntry_eq_none h)⟩

/-- Concrete instance of C4: a one-cell row is skipped by both layouts. -/
theorem c4_bad_rows_skipped_witness :
    (parse_online [[[⟨"x", none⟩], [⟨"A", none⟩, ⟨"", none⟩, ⟨"", some "/220.jpg"⟩]]] =
      parse_online [[[⟨"A", none⟩, ⟨"", none⟩, ⟨"", some "/220.jpg"⟩]]])
    ∧ (parse_ranking [[[⟨"x", none⟩],
        [⟨"", none⟩, ⟨"B", none⟩, ⟨"", none⟩, ⟨"", some "/120.jpg"⟩]]] =
      parse_ranking [[[⟨"", none⟩, ⟨"B", none⟩, ⟨"", none⟩, ⟨"", some "/120.jpg"⟩]]]) :=
  ⟨(c4_bad_rows_skipped [⟨"x", none⟩] [] []
      [[⟨"A", none⟩, ⟨"", none⟩, ⟨"", some "/220.jpg"⟩]] []).1 (Or.inl (by decide)),
   (c4_bad_rows_skipped [⟨"x", none⟩] [] []
      [[⟨"", none⟩, ⟨"B", none⟩, ⟨"", none⟩, ⟨"", some "/120.jpg"⟩]] []).2
      (Or.inl (by decide))⟩

/-- C6: a persisted file whose content does not parse loads as the empty
snapshot instead of raising. -/
theorem c6_corrupt_state_loads_empty (content : String)
    (h : parseJson content = none) : load_state (some content) = JVal.obj [] := by
  unfold load_state ensure_state
  simp [h]

/-- Concrete instance of C6: a truncated object literal. -/
theorem c6_corrupt_state_loads_empty_witness :
    parseJson "\x7bbad" = none ∧ load_state (some "\x7bbad") = JVal.obj [] :=
  ⟨rfl, c6_corrupt_state_loads_empty "\x7bbad" rfl⟩

/-- C7: the built message resolves both codes through the registry with
the raw code as fallback, and consists of the decorative text followed by
a space exactly when non-empty, then `<player> rebirthed from <oldName>
to <newName>.` -/
theorem c7_message_format (quote player old_code new_code : String) :
    build_message quote player old_code new_code =
      messageSpec quote player old_code new_code := by
  rcases ho : jobMapGet old_code with _ | nmo <;>
    rcases hn : jobMapGet new_code with _ | nmn <;>
      simp [build_message, messageSpec, ho, hn]

/-- C2: the reconciled roster keeps every previous key absent from the
current scrape unchanged, and maps every key of the current scrape to its
current value; the snapshot never loses a key. -/
theorem c2_reconcile_monotonic (before : alist JVal) (current : Dict)
    (hc : (current.map Prod.fst).Nodup) :
    (∀ k, alget current k = none →
      alget (reconcile before current) k = alget before k)
    ∧ (∀ k v, alget current k = some v →
      alget (reconcile before current) k = some (JVal.str v)) := by
  have he : (current.map (fun p => (p.1, JVal.str p.2))).map Prod.fst
      = current.map Prod.fst := by
    rw [List.map_map]
    rfl
  have hkeys : ((current.map (fun p => (p.1, JVal.str p.2))).map Prod.fst).Nodup := by
    rw [he]
    exact hc
  constructor
  · intro k hk
    unfold reconcile
    rw [alget_alupdate _ _ hkeys k, alget_mapval, hk]
    exact rfl
  · intro k v hk
    unfold reconcile
    rw [alget_alupdate _ _ hkeys k, alget_mapval, hk]
    exact rfl

/-- Concrete instance of C2 (scenario C of §8: an offline player keeps
the stored code; a scraped player gets the scraped code). -/
theorem c2_reconcile_monotonic_witness :
    ((∀ k, alget [("Alice", "221")] k = none →
      alget (reconcile [("Carol", JVal.str "320")] [("Alice", "221")]) k
        = alget [("Carol", JVal.str "320")] k)
    ∧ (∀ k v, alget [("Alice", "221")] k = some v →
      alget (reconcile [("Carol", JVal.str "320")] [("Alice", "221")]) k
        = some (JVal.str v))) :=
  c2_reconcile_monotonic [("Carol", JVal.str "320")] [("Alice", "221")] (by decide)

/-! ### Run-level lemmas -/

theorem scrapeTotal_error (source : Source) (fetchO fetchR : Except String Doc)
    (hf : fetchFails source fetchO fetchR) :
    ∃ e, scrapeTotal source fetchO fetchR = .error e := by
  rcases hf with ⟨h1, e, he⟩ | ⟨h1, e, he⟩
  · refine ⟨e, ?_⟩
    unfold scrapeTotal fetchOnlinePart
    rw [if_pos h1, he]
  · unfold scrapeTotal
    cases hf1 : fetchOnlinePart source fetchO with
    | error e1 => exact ⟨e1, rfl⟩
    | ok c1 =>
      refine ⟨e, ?_⟩
      show fetchRankingPart source c1 fetchR = Except.error e
      unfold fetchRankingPart
      rw [if_pos h1, he]

/-- C5: when fetching any requested source page fails, the run aborts:
the result is an error rather than a list of delivered messages, and the
snapshot file keeps exactly its prior content (`ensure_state` having
created it with an empty object first if it was absent). -/
theorem c5_fetch_failure_aborts (source : Source) (fetchO fetchR : Except String Doc)
    (quote : String) (fs0 : Option String) (hf : fetchFails source fetchO fetchR) :
    (∃ e, (run source fetchO fetchR quote fs0).2 = Except.error e)
    ∧ (∀ s, fs0 = some s → (run source fetchO fetchR quote fs0).1 = s) := by
  obtain ⟨err, herr⟩ := scrapeTotal_error source fetchO fetchR hf
  have hcore : ∃ e, runCore source fetchO fetchR quote (load_state fs0) = .error e := by
    cases hpg : pyGet (load_state fs0) "players" (JVal.obj []) with
    | error e =>
      refine ⟨e, ?_⟩
      unfold runCore
      rw [hpg]
    | ok p =>
      refine ⟨err, ?_⟩
      unfold runCore
      rw [hpg, herr]
  obtain ⟨e, he⟩ := hcore
  have hrun : run source fetchO fetchR quote fs0 = (ensure_state fs0, Except.error e) := by
    simp only [run, he]
  refine ⟨⟨e, by rw [hrun]⟩, fun s hs => by rw [hrun, hs]; rfl⟩

/-- Concrete instance of C5: a failing online fetch aborts the run and
leaves the snapshot file untouched. -/
theorem c5_fetch_failure_aborts_witness :
    ((∃ e, (run .online (.error "boom") (.ok []) "" (some "\x7b\x7d")).2
        = Except.error e)
    ∧ (∀ s, some "\x7b\x7d" = some s →
        (run .online (.error "boom") (.ok []) "" (some "\x7b\x7d")).1 = s)) :=
  c5_fetch_failure_aborts .online (.error "boom") (.ok []) "" (some "\x7b\x7d")
    (Or.inl ⟨Or.inl rfl, "boom", rfl⟩)

/-- C9: a completed run writes only the keys `players` and
`last_run_source`; every other top-level key of the loaded state is
present with an unchanged value in the saved state, and no other key is
added. -/
theorem c9_frame_other_keys (source : Source) (fetchO fetchR : Except String Doc)
    (quote : String) (state st3 : JVal) (chs : List Transition) (msgs : List String)
    (hrun : runCore source fetchO fetchR quote state = .ok (st3, chs, msgs))
    (k : String) (hk1 : k ≠ "players") (hk2 : k ≠ "last_run_source") :
    jTopGet st3 k = jTopGet state k := by
  cases state with
  | null => cases hrun
  | bool b => cases hrun
  | num n => cases hrun
  | str s => cases hrun
  | arr es => cases hrun
  | obj fields =>
    unfold runCore at hrun
    simp only [pyGet] at hrun
    split at hrun
    · cases hrun
    · split at hrun
      · cases hrun
      · cases hrun
        simp only [jset, jTopGet]
        rw [alget_alinsert_ne _ _ _ _ (Ne.symm hk2), alget_alinsert_ne _ _ _ _ (Ne.symm hk1)]

/-- Concrete instance of C9: an unrelated key `extra` survives a run. -/
theorem c9_frame_other_keys_witness :
    jTopGet (JVal.obj [("players", JVal.obj []), ("extra", JVal.num 5),
        ("last_run_source", JVal.str "online")]) "extra"
      = jTopGet (JVal.obj [("players", JVal.obj []), ("extra", JVal.num 5)]) "extra" :=
  c9_frame_other_keys .online (.ok []) (.ok []) ""
    (JVal.obj [("players", JVal.obj []), ("extra", JVal.num 5)])
    (JVal.obj [("players", JVal.obj []), ("extra", JVal.num 5),
      ("last_run_source", JVal.str "online")])
    [] [] rfl "extra" (by decide) (by decide)

theorem changesLoop_nil_before (cur : Dict) (acc : List Transition) :
    changesLoop [] acc cur = .ok acc := by
  induction cur generalizing acc with
  | nil => rfl
  | cons p rest ih =>
    obtain ⟨n, v⟩ := p
    exact ih acc

theorem reconcile_nil (cur : Dict) (hc : (cur.map Prod.fst).Nodup) :
    reconcile [] cur = cur.map (fun q => (q.1, JVal.str q.2)) := by
  unfold reconcile
  rw [alupdate_eq_append]
  · simp
  · simp only [List.map_nil, List.nil_append]
    have he : (cur.map (fun p => (p.1, JVal.str p.2))).map Prod.fst
        = cur.map Prod.fst := by
      rw [List.map_map]
      rfl
    rw [he]
    exact hc

/-- C10: when the loaded state's `players` key exists but is not a dict,
the run does not fail: the prior roster is treated as empty, so no
transitions (and no messages) are produced, and the saved `players`
object is exactly the scraped roster. -/
theorem c10_non_dict_players (source : Source) (fetchO fetchR : Except String Doc)
    (quote : String) (fields : alist JVal) (p : JVal) (cur : Dict)
    (hp : alget fields "players" = some p) (hno : isObj p = false)
    (hsc : scrapeTotal source fetchO fetchR = .ok cur) :
    ∃ st3, runCore source fetchO fetchR quote (JVal.obj fields) = .ok (st3, [], [])
      ∧ jTopGet st3 "players"
          = some (JVal.obj (cur.map (fun q => (q.1, JVal.str q.2)))) := by
  have hbefore : asObjFields ((alget fields "players").getD (JVal.obj [])) = [] := by
    rw [hp]
    cases p with
    | null => rfl
    | bool b => rfl
    | num n => rfl
    | str s => rfl
    | arr es => rfl
    | obj f => simp [isObj] at hno
  have hchanges : computeChanges ([] : alist JVal) cur = .ok [] :=
    changesLoop_nil_before cur []
  have hrec : reconcile [] cur = cur.map (fun q => (q.1, JVal.str q.2)) :=
    reconcile_nil cur (nodup_keys_scrapeTotal source fetchO fetchR cur hsc)
  refine ⟨jset (jset (JVal.obj fields) "players"
      (JVal.obj (cur.map (fun q => (q.1, JVal.str q.2))))) "last_run_source"
      (JVal.str (sourceStr source)), ?_, ?_⟩
  · unfold runCore computeChanges at *
    simp only [pyGet, hsc, hbefore, hchanges, hrec, List.map_nil]
  · simp only [jset, jTopGet]
    rw [alget_alinsert_ne _ _ _ _ (by decide), alget_alinsert_self]

/-- Concrete instance of C10: a string-valued `players` entry is replaced
by the scraped roster without failing. -/
theorem c10_non_dict_players_witness :
    ∃ st3, runCore .online (.ok []) (.ok []) ""
        (JVal.obj [("players", JVal.str "oops")]) = .ok (st3, [], [])
      ∧ jTopGet st3 "players" = some (JVal.obj []) :=
  c10_non_dict_players .online (.ok []) (.ok []) ""
    [("players", JVal.str "oops")] (JVal.str "oops") [] rfl rfl rfl

/-! ### JSON round-trip: whitespace and string lemmas -/

theorem skipWs_cons_not {c : Char} (h : isWsChar c = false) (l : List Char) :
    skipWs (c :: l) = c :: l := by
  simp [skipWs, h]

theorem skipWs_cons_ws {c : Char} (h : isWsChar c = true) (l : List Char) :
    skipWs (c :: l) = skipWs l := by
  simp [skipWs, h]

theorem skipWs_spaces (n : Nat) (l : List Char) :
    skipWs (spaces n ++ l) = skipWs l := by
  induction n with
  | zero => simp [spaces]
  | succ m ih =>
    rw [show spaces (m + 1) = ' ' :: spaces m from by simp [spaces, List.replicate_succ]]
    rw [List.cons_append, skipWs_cons_ws (by decide)]
    exact ih

theorem hexVal_hexDigitChar : ∀ m, m < 16 → hexVal (hexDigitChar m) = some m := by decide

theorem parseStr_quot (X : List Char) : parseStr ('"' :: X) = some ([], X) := rfl

theorem parseStr_shorthand (e d : Char) (X : List Char) (he : e ≠ 'u')
    (hd : escDecode e = some d) :
    parseStr ('\\' :: e :: X) = (parseStr X).map (fun p => (d :: p.1, p.2)) := by
  show parseEsc (e :: X) = _
  simp only [parseEsc, if_neg he, hd]

theorem parseStr_u00 (m : Nat) (hm : m < 32) (X : List Char) :
    parseStr ('\\' :: 'u' :: '0' :: '0' ::
        hexDigitChar (m / 16) :: hexDigitChar (m % 16) :: X)
      = (parseStr X).map (fun p => (Char.ofNat m :: p.1, p.2)) := by
  show parseUEsc ('0' :: '0' :: hexDigitChar (m / 16) :: hexDigitChar (m % 16) :: X) = _
  have hh : hex4 '0' '0' (hexDigitChar (m / 16)) (hexDigitChar (m % 16)) = some m := by
    simp only [hex4, show hexVal '0' = some 0 from rfl,
      hexVal_hexDigitChar _ (show m / 16 < 16 by omega),
      hexVal_hexDigitChar _ (show m % 16 < 16 by omega)]
    congr 1
    omega
  simp only [parseUEsc, hh]
  rw [if_neg (by omega : ¬(55296 ≤ m ∧ m < 56320)),
    if_neg (by omega : ¬(56320 ≤ m ∧ m < 57344))]

theorem parseStr_plain (c : Char) (X : List Char) (h1 : c ≠ '"') (h2 : c ≠ '\\')
    (h3 : ¬ c.toNat < 32) :
    parseStr (c :: X) = (parseStr X).map (fun p => (c :: p.1, p.2)) := by
  simp only [parseStr, if_neg h1, if_neg h2, if_neg h3]

theorem parseStr_escBody (cs : List Char) : ∀ rest : List Char,
    parseStr (escBody cs ++ '"' :: rest) = some (cs, rest) := by
  induction cs with
  | nil => intro rest; exact parseStr_quot rest
  | cons c cs ih =>
    intro rest
    show parseStr ((escCharL c ++ escBody cs) ++ '"' :: rest) = some (c :: cs, rest)
    rw [List.append_assoc]
    by_cases h1 : c = '"'
    · subst h1
      show parseStr ('\\' :: '"' :: (escBody cs ++ '"' :: rest)) = _
      rw [parseStr_shorthand '"' '"' _ (by decide) rfl, ih rest]
      rfl
    · by_cases h2 : c = '\\'
      · subst h2
        show parseStr ('\\' :: '\\' :: (escBody cs ++ '"' :: rest)) = _
        rw [parseStr_shorthand '\\' '\\' _ (by decide) rfl, ih rest]
        rfl
      · by_cases h3 : c = '\n'
        · subst h3
          show parseStr ('\\' :: 'n' :: (escBody cs ++ '"' :: rest)) = _
          rw [parseStr_shorthand 'n' '\n' _ (by decide) rfl, ih rest]
          rfl
        · by_cases h4 : c = '\r'
          · subst h4
            show parseStr ('\\' :: 'r' :: (escBody cs ++ '"' :: rest)) = _
            rw [parseStr_shorthand 'r' '\r' _ (by decide) rfl, ih rest]
            rfl
          · by_cases h5 : c = '\t'
            · subst h5
              show parseStr ('\\' :: 't' :: (escBody cs ++ '"' :: rest)) = _
              rw [parseStr_shorthand 't' '\t' _ (by decide) rfl, ih rest]
              rfl
            · by_cases h6 : c.toNat = 8
              · have hc : c = '\x08' := by
                  have h := Char.ofNat_toNat c
                  rw [h6] at h
                  exact h.symm
                subst hc
                show parseStr ('\\' :: 'b' :: (escBody cs ++ '"' :: rest)) = _
                rw [parseStr_shorthand 'b' '\x08' _ (by decide) rfl, ih rest]
                rfl
              · by_cases h7 : c.toNat = 12
                · have hc : c = '\x0c' := by
                    have h := Char.ofNat_toNat c
                    rw [h7] at h
                    exact h.symm
                  subst hc
                  show parseStr ('\\' :: 'f' :: (escBody cs ++ '"' :: rest)) = _
                  rw [parseStr_shorthand 'f' '\x0c' _ (by decide) rfl, ih rest]
                  rfl
                · by_cases h8 : c.toNat < 32
                  · rw [show escCharL c = ['\\', 'u', '0', '0',
                        hexDigitChar (c.toNat / 16), hexDigitChar (c.toNat % 16)] from by
                      unfold escCharL
                      rw [if_neg h1, if_neg h2, if_neg h3, if_neg h4, if_neg h5,
                        if_neg h6, if_neg h7, if_pos h8]]
                    simp only [List.cons_append, List.nil_append]
                    rw [parseStr_u00 c.toNat h8 _, ih rest]
                    simp [Char.ofNat_toNat]
                  · rw [show escCharL c = [c] from by
                      unfold escCharL
                      rw [if_neg h1, if_neg h2, if_neg h3, if_neg h4, if_neg h5,
                        if_neg h6, if_neg h7, if_neg h8]]
                    simp only [List.cons_append, List.nil_append]
                    rw [parseStr_plain c _ h1 h2 h8, ih rest]
                    rfl

/-! ### JSON round-trip: number lemmas -/

theorem digit_isDigit : ∀ d, d < 10 → (Char.ofNat (48 + d)).isDigit = true := by decide

theorem digit_digitVal : ∀ d, d < 10 → digitVal (Char.ofNat (48 + d)) = d := by decide

theorem digit_not_ws : ∀ d, d < 10 → isWsChar (Char.ofNat (48 + d)) = false := by decide

theorem digit_ne_quot : ∀ d, d < 10 → Char.ofNat (48 + d) ≠ '"' := by decide

theorem digit_ne_lbrace : ∀ d, d < 10 → Char.ofNat (48 + d) ≠ '\x7b' := by decide

theorem digit_ne_lbrack : ∀ d, d < 10 → Char.ofNat (48 + d) ≠ '[' := by decide

theorem digit_ne_rbrack : ∀ d, d < 10 → Char.ofNat (48 + d) ≠ ']' := by decide

theorem digit_ne_n : ∀ d, d < 10 → Char.ofNat (48 + d) ≠ 'n' := by decide

theorem digit_ne_t : ∀ d, d < 10 → Char.ofNat (48 + d) ≠ 't' := by decide

theorem digit_ne_f : ∀ d, d < 10 → Char.ofNat (48 + d) ≠ 'f' := by decide

theorem digit_ne_minus : ∀ d, d < 10 → Char.ofNat (48 + d) ≠ '-' := by decide

theorem digit_ne_zero_char : ∀ d, d < 10 → d ≠ 0 → Char.ofNat (48 + d) ≠ '0' := by decide

theorem noFloatNext_of_numSafe : ∀ {rest : List Char},
    numSafe rest → noFloatNext rest = true := by
  intro rest hr
  cases rest with
  | nil => rfl
  | cons c r =>
    unfold numSafe at hr
    push_neg at hr
    unfold noFloatNext
    simp [hr.2.1, hr.2.2.1, hr.2.2.2]

theorem takeDigits_append (ds rest : List Char) (hd : ∀ c ∈ ds, c.isDigit = true)
    (hr : numSafe rest) : takeDigits (ds ++ rest) = (ds, rest) := by
  induction ds with
  | nil =>
    cases rest with
    | nil => rfl
    | cons c r =>
      unfold numSafe at hr
      push_neg at hr
      simp only [List.nil_append]
      unfold takeDigits
      simp [hr.1]
  | cons c ds ih =>
    simp only [List.cons_append]
    unfold takeDigits
    rw [if_pos (hd c (List.mem_cons_self c ds)),
      ih (fun x hx => hd x (List.mem_cons_of_mem c hx))]

theorem chsVal_aux (l : List Nat) (hl : ∀ d ∈ l, d < 10) (acc : Nat) :
    (l.map (fun d => Char.ofNat (48 + d))).foldl (fun a c => a * 10 + digitVal c) acc
      = l.foldl (fun a d => a * 10 + d) acc := by
  induction l generalizing acc with
  | nil => rfl
  | cons d l ih =>
    simp only [List.map_cons, List.foldl_cons]
    rw [digit_digitVal d (hl d (List.mem_cons_self d l))]
    exact ih (fun x hx => hl x (List.mem_cons_of_mem d hx)) _

theorem foldl_digits (l : List Nat) :
    l.reverse.foldl (fun a d => a * 10 + d) 0 = Nat.ofDigits 10 l := by
  rw [List.foldl_reverse]
  induction l with
  | nil => simp [Nat.ofDigits]
  | cons d l ih =>
    rw [List.foldr_cons, Nat.ofDigits_cons, ih]
    omega

theorem natChars_shape (n : Nat) :
    ∃ d cs, d < 10 ∧ natChars n = Char.ofNat (48 + d) :: cs ∧
      ∀ x ∈ cs, x.isDigit = true := by
  by_cases h0 : n = 0
  · subst h0
    refine ⟨0, [], by omega, rfl, ?_⟩
    intro x hx
    simp at hx
  · have hne : Nat.digits 10 n ≠ [] := Nat.digits_ne_nil_iff_ne_zero.mpr h0
    have hrevne : (Nat.digits 10 n).reverse ≠ [] := by simpa using hne
    obtain ⟨d0, tl, hrev⟩ := List.exists_cons_of_ne_nil hrevne
    have hd0 : d0 < 10 := by
      have hmem2 : d0 ∈ Nat.digits 10 n := by
        rw [← List.mem_reverse, hrev]
        exact List.mem_cons_self _ _
      exact Nat.digits_lt_base (by norm_num) hmem2
    refine ⟨d0, tl.map (fun d => Char.ofNat (48 + d)), hd0, ?_, ?_⟩
    · unfold natChars
      rw [if_neg h0, hrev, List.map_cons]
    · intro x hx
      simp only [List.mem_map] at hx
      obtain ⟨d, hdmem, rfl⟩ := hx
      have hmem2 : d ∈ Nat.digits 10 n := by
        rw [← List.mem_reverse, hrev]
        exact List.mem_cons_of_mem _ hdmem
      exact digit_isDigit d (Nat.digits_lt_base (by norm_num) hmem2)

theorem parsePosNum_natChars (n : Nat) (rest : List Char) (hr : numSafe rest) :
    parsePosNum (natChars n ++ rest) = some (n, rest) := by
  by_cases h0 : n = 0
  · subst h0
    show parsePosNum ('0' :: rest) = some (0, rest)
    simp only [parsePosNum, if_true]
    rw [if_pos (noFloatNext_of_numSafe hr)]
  · have hne : Nat.digits 10 n ≠ [] := Nat.digits_ne_nil_iff_ne_zero.mpr h0
    have hrevne : (Nat.digits 10 n).reverse ≠ [] := by simpa using hne
    obtain ⟨d0, tl, hrev⟩ := List.exists_cons_of_ne_nil hrevne
    have hmem : ∀ d ∈ d0 :: tl, d < 10 := by
      intro d hd
      have hmem2 : d ∈ Nat.digits 10 n := by
        rw [← List.mem_reverse, hrev]
        exact hd
      exact Nat.digits_lt_base (by norm_num) hmem2
    have hd0lt : d0 < 10 := hmem d0 (List.mem_cons_self _ _)
    have hd0ne : d0 ≠ 0 := by
      have hdig : Nat.digits 10 n = tl.reverse ++ [d0] := by
        have h := congrArg List.reverse hrev
        simpa using h
      have h1 : (Nat.digits 10 n).getLast? = some d0 := by
        rw [hdig, List.getLast?_concat]
      have h2 := List.getLast?_eq_getLast (Nat.digits 10 n) hne
      rw [h1] at h2
      rw [show d0 = (Nat.digits 10 n).getLast hne from Option.some.inj h2]
      exact Nat.getLast_digit_ne_zero 10 h0
    have hnat : natChars n ++ rest
        = Char.ofNat (48 + d0) :: (tl.map (fun d => Char.ofNat (48 + d)) ++ rest) := by
      unfold natChars
      rw [if_neg h0, hrev, List.map_cons, List.cons_append]
    rw [hnat]
    simp only [parsePosNum]
    rw [if_neg (digit_ne_zero_char d0 hd0lt hd0ne), if_pos (digit_isDigit d0 hd0lt)]
    rw [takeDigits_append _ _ (by
      intro x hx
      simp only [List.mem_map] at hx
      obtain ⟨d, hdmem, rfl⟩ := hx
      exact digit_isDigit d (hmem d (List.mem_cons_of_mem _ hdmem))) hr]
    rw [if_pos (noFloatNext_of_numSafe hr)]
    have hval : chsVal (Char.ofNat (48 + d0) :: tl.map (fun d => Char.ofNat (48 + d))) = n := by
      rw [show Char.ofNat (48 + d0) :: tl.map (fun d => Char.ofNat (48 + d))
          = (d0 :: tl).map (fun d => Char.ofNat (48 + d)) from rfl]
      unfold chsVal
      rw [chsVal_aux _ hmem 0, ← hrev, foldl_digits, Nat.ofDigits_digits]
    rw [hval]

theorem parseNum_intChars (n : Int) (rest : List Char) (hr : numSafe rest) :
    parseNum (intChars n ++ rest) = some (JVal.num n, rest) := by
  unfold intChars
  by_cases hneg : n < 0
  · rw [if_pos hneg]
    show parseNum ('-' :: (natChars n.natAbs ++ rest)) = _
    simp only [parseNum, if_true]
    rw [parsePosNum_natChars n.natAbs rest hr]
    have hval : -(n.natAbs : Int) = n := by omega
    show some (JVal.num (-(n.natAbs : Int)), rest) = some (JVal.num n, rest)
    rw [hval]
  · rw [if_neg hneg]
    obtain ⟨d, cs, hd, hshape, hdig⟩ := natChars_shape n.natAbs
    rw [hshape, List.cons_append]
    simp only [parseNum]
    rw [if_neg (digit_ne_minus d hd), ← List.cons_append, ← hshape,
      parsePosNum_natChars n.natAbs rest hr]
    have hval : (n.natAbs : Int) = n := by omega
    show some (JVal.num (n.natAbs : Int), rest) = some (JVal.num n, rest)
    rw [hval]

theorem parseVal_eq_parseNum (f : Nat) (c : Char) (X : List Char)
    (h : c = '-' ∨ ∃ d, d < 10 ∧ c = Char.ofNat (48 + d)) :
    parseVal (f + 1) (c :: X) = parseNum (c :: X) := by
  have hc : c ≠ '"' ∧ c ≠ '\x7b' ∧ c ≠ '[' ∧ c ≠ 'n' ∧ c ≠ 't' ∧ c ≠ 'f' := by
    rcases h with rfl | ⟨d, hd, rfl⟩
    · exact ⟨by decide, by decide, by decide, by decide, by decide, by decide⟩
    · exact ⟨digit_ne_quot d hd, digit_ne_lbrace d hd, digit_ne_lbrack d hd,
        digit_ne_n d hd, digit_ne_t d hd, digit_ne_f d hd⟩
  simp only [parseVal, if_neg hc.1, if_neg hc.2.1, if_neg hc.2.2.1, if_neg hc.2.2.2.1,
    if_neg hc.2.2.2.2.1, if_neg hc.2.2.2.2.2]

theorem intChars_shape (n : Int) :
    ∃ c cs, intChars n = c :: cs ∧
      (c = '-' ∨ ∃ d, d < 10 ∧ c = Char.ofNat (48 + d)) := by
  unfold intChars
  by_cases hneg : n < 0
  · rw [if_pos hneg]
    exact ⟨'-', natChars n.natAbs, rfl, Or.inl rfl⟩
  · rw [if_neg hneg]
    obtain ⟨d, cs, hd, hshape, _⟩ := natChars_shape n.natAbs
    exact ⟨_, cs, hshape, Or.inr ⟨d, hd, rfl⟩⟩

/-! ### JSON round-trip: dump shapes and parser dispatch -/

theorem digit_ne_rbrace : ∀ d, d < 10 → Char.ofNat (48 + d) ≠ '\x7d' := by decide

theorem numSafe_nil : numSafe [] := trivial

theorem numSafe_comma (l : List Char) : numSafe (',' :: l) := by
  show ¬((',' : Char).isDigit = true ∨ (',' : Char) = '.' ∨ (',' : Char) = 'e'
    ∨ (',' : Char) = 'E')
  decide

theorem numSafe_newline (l : List Char) : numSafe ('\n' :: l) := by
  show ¬(('\n' : Char).isDigit = true ∨ ('\n' : Char) = '.' ∨ ('\n' : Char) = 'e'
    ∨ ('\n' : Char) = 'E')
  decide

theorem dumpVal_head (v : JVal) (lvl : Nat) :
    ∃ c t, dumpVal v lvl = c :: t ∧ isWsChar c = false ∧ c ≠ ']' ∧ c ≠ '\x7d' := by
  cases v with
  | null => refine ⟨'n', _, rfl, ?_, ?_, ?_⟩ <;> decide
  | bool b =>
    cases b with
    | true => refine ⟨'t', _, rfl, ?_, ?_, ?_⟩ <;> decide
    | false => refine ⟨'f', _, rfl, ?_, ?_, ?_⟩ <;> decide
  | num n =>
    obtain ⟨c, cs, hshape, hcase⟩ := intChars_shape n
    refine ⟨c, cs, hshape, ?_⟩
    rcases hcase with rfl | ⟨d, hd, rfl⟩
    · refine ⟨?_, ?_, ?_⟩ <;> decide
    · exact ⟨digit_not_ws d hd, digit_ne_rbrack d hd, digit_ne_rbrace d hd⟩
  | str s => refine ⟨'"', _, rfl, ?_, ?_, ?_⟩ <;> decide
  | arr es =>
    cases es with
    | nil => refine ⟨'[', _, rfl, ?_, ?_, ?_⟩ <;> decide
    | cons e es => refine ⟨'[', _, rfl, ?_, ?_, ?_⟩ <;> decide
  | obj fs =>
    cases fs with
    | nil => refine ⟨'\x7b', _, rfl, ?_, ?_, ?_⟩ <;> decide
    | cons m ms => refine ⟨'\x7b', _, rfl, ?_, ?_, ?_⟩ <;> decide

theorem skipWs_dumpVal (v : JVal) (lvl : Nat) (X : List Char) :
    skipWs (dumpVal v lvl ++ X) = dumpVal v lvl ++ X := by
  obtain ⟨c, t, hshape, hws, _, _⟩ := dumpVal_head v lvl
  rw [hshape, List.cons_append, skipWs_cons_not hws]

theorem dumpMember_head (m : String × JVal) (lvl : Nat) :
    ∃ t, dumpMember m lvl = '"' :: t := by
  obtain ⟨k, v⟩ := m
  exact ⟨_, rfl⟩

theorem parseVal_lbrack_nonempty (f : Nat) (Y : List Char) (c : Char) (t : List Char)
    (hY : skipWs Y = c :: t) (hbr : c ≠ ']') :
    parseVal (f + 1) ('[' :: Y)
      = (parseElems f (c :: t)).map (fun p => (JVal.arr p.1, p.2)) := by
  show (match skipWs Y with
    | [] => (parseElems f []).map
        (fun p : List JVal × List Char => (JVal.arr p.1, p.2))
    | c2 :: rest2 =>
      if c2 = ']' then some (JVal.arr [], rest2)
      else (parseElems f (c2 :: rest2)).map
        (fun p : List JVal × List Char => (JVal.arr p.1, p.2))) = _
  rw [hY]
  show (if c = ']' then some (JVal.arr [], t)
    else (parseElems f (c :: t)).map
      (fun p : List JVal × List Char => (JVal.arr p.1, p.2))) = _
  rw [if_neg hbr]

theorem parseVal_lbrace_nonempty (f : Nat) (Y : List Char) (c : Char) (t : List Char)
    (hY : skipWs Y = c :: t) (hbr : c ≠ '\x7d') :
    parseVal (f + 1) ('\x7b' :: Y)
      = (parseMembers f [] (c :: t)).map (fun p => (JVal.obj p.1, p.2)) := by
  show (match skipWs Y with
    | [] => (parseMembers f [] []).map
        (fun p : alist JVal × List Char => (JVal.obj p.1, p.2))
    | c2 :: rest2 =>
      if c2 = '\x7d' then some (JVal.obj [], rest2)
      else (parseMembers f [] (c2 :: rest2)).map
        (fun p : alist JVal × List Char => (JVal.obj p.1, p.2))) = _
  rw [hY]
  show (if c = '\x7d' then some (JVal.obj [], t)
    else (parseMembers f [] (c :: t)).map
      (fun p : alist JVal × List Char => (JVal.obj p.1, p.2))) = _
  rw [if_neg hbr]

theorem parseElems_step (f : Nat) (s : List Char) (v : JVal) (r : List Char) (c : Char)
    (r2 : List Char) (h : parseVal f s = some (v, r)) (hws : skipWs r = c :: r2) :
    parseElems (f + 1) s =
      (if c = ',' then
        (match parseElems f (skipWs r2) with
         | none => none
         | some (vs, r3) => some (v :: vs, r3))
      else if c = ']' then some ([v], r2)
      else none) := by
  simp only [parseElems, h, hws]

theorem parseMembers_full (f : Nat) (acc : alist JVal) (X kcs r1 : List Char)
    (hstr : parseStr X = some (kcs, r1)) (r2 : List Char)
    (hws1 : skipWs r1 = ':' :: r2) (v : JVal) (r3 : List Char)
    (hval : parseVal f (skipWs r2) = some (v, r3)) (c2 : Char) (r4 : List Char)
    (hws2 : skipWs r3 = c2 :: r4) :
    parseMembers (f + 1) acc ('"' :: X) =
      (if c2 = ',' then parseMembers f (alinsert acc (String.mk kcs) v) (skipWs r4)
       else if c2 = '\x7d' then some (alinsert acc (String.mk kcs) v, r4)
       else none) := by
  simp only [parseMembers, hstr, hws1, hval, hws2, if_true]

theorem pfuel_pos (v : JVal) : 1 ≤ pfuel v := by
  cases v <;> simp [pfuel]

theorem pfuel_le_aux : ∀ N : Nat,
    (∀ v : JVal, sizeOf v ≤ N → ∀ lvl, pfuel v ≤ (dumpVal v lvl).length + 1)
    ∧ (∀ l : List JVal, sizeOf l ≤ N → ∀ lvl,
        pelems l ≤ (dumpTailElems l lvl).length + 4)
    ∧ (∀ l : List (String × JVal), sizeOf l ≤ N → ∀ lvl,
        pmems l ≤ (dumpTailMembers l lvl).length + 4) := by
  intro N
  induction N with
  | zero =>
    refine ⟨?_, ?_, ?_⟩
    · intro v hv
      exact absurd hv (by cases v <;> simp)
    · intro l hl
      exact absurd hl (by cases l <;> simp)
    · intro l hl
      exact absurd hl (by cases l <;> simp)
  | succ N ih =>
    obtain ⟨ihV, ihL, ihM⟩ := ih
    refine ⟨?_, ?_, ?_⟩
    · intro v hv lvl
      cases v with
      | null => simp only [pfuel]; omega
      | bool b => simp only [pfuel]; omega
      | num n => simp only [pfuel]; omega
      | str s => simp only [pfuel]; omega
      | arr es =>
        cases es with
        | nil => simp only [pfuel, pelems]; omega
        | cons e es =>
          simp only [JVal.arr.sizeOf_spec, List.cons.sizeOf_spec] at hv
          have h1 := ihV e (by omega) (lvl + 1)
          have h2 := ihL es (by omega) (lvl + 1)
          simp only [pfuel, pelems, dumpVal, List.length_append, List.length_cons,
            spaces, List.length_replicate]
          omega
      | obj fs =>
        cases fs with
        | nil => simp only [pfuel, pmems]; omega
        | cons m ms =>
          obtain ⟨k, v2⟩ := m
          simp only [JVal.obj.sizeOf_spec, List.cons.sizeOf_spec,
            Prod.mk.sizeOf_spec] at hv
          have h1 := ihV v2 (by omega) (lvl + 1)
          have h2 := ihM ms (by omega) (lvl + 1)
          simp only [pfuel, pmems, dumpVal, dumpMember, dumpStr, List.length_append,
            List.length_cons, spaces, List.length_replicate]
          omega
    · intro l hl lvl
      cases l with
      | nil => simp only [pelems, dumpTailElems]; omega
      | cons e es =>
        simp only [List.cons.sizeOf_spec] at hl
        have h1 := ihV e (by omega) lvl
        have h2 := ihL es (by omega) lvl
        simp only [pelems, dumpTailElems, List.length_append, List.length_cons,
          spaces, List.length_replicate]
        omega
    · intro l hl lvl
      cases l with
      | nil => simp only [pmems, dumpTailMembers]; omega
      | cons m ms =>
        obtain ⟨k, v2⟩ := m
        simp only [List.cons.sizeOf_spec, Prod.mk.sizeOf_spec] at hl
        have h1 := ihV v2 (by omega) lvl
        have h2 := ihM ms (by omega) lvl
        simp only [pmems, dumpTailMembers, dumpMember, dumpStr, List.length_append,
          List.length_cons, spaces, List.length_replicate]
        omega

theorem pfuel_le_dump (v : JVal) (lvl : Nat) : pfuel v ≤ (dumpVal v lvl).length + 1 :=
  (pfuel_le_aux (sizeOf v)).1 v (le_refl _) lvl

theorem parse_dump_aux : ∀ fuel : Nat,
    (∀ (v : JVal) (lvl : Nat) (rest : List Char), jwf v = true → pfuel v ≤ fuel →
      numSafe rest → parseVal fuel (dumpVal v lvl ++ rest) = some (v, rest))
    ∧ (∀ (e : JVal) (es : List JVal) (lvl : Nat) (rest : List Char),
        jwf e = true → jwfList es = true → pelems (e :: es) ≤ fuel →
        parseElems fuel (dumpVal e (lvl + 1) ++ (dumpTailElems es (lvl + 1) ++
          '\n' :: (spaces (2 * lvl) ++ ']' :: rest))) = some (e :: es, rest))
    ∧ (∀ (k : String) (v : JVal) (ms : List (String × JVal)) (acc : List (String × JVal))
        (lvl : Nat) (rest : List Char),
        jwf v = true → jwfFields ms = true → pmems ((k, v) :: ms) ≤ fuel →
        parseMembers fuel acc (dumpMember (k, v) (lvl + 1) ++
          (dumpTailMembers ms (lvl + 1) ++ '\n' :: (spaces (2 * lvl) ++ '\x7d' :: rest)))
          = some (((k, v) :: ms).foldl (fun a p => alinsert a p.1 p.2) acc, rest)) := by
  intro fuel
  induction fuel with
  | zero =>
    refine ⟨?_, ?_, ?_⟩
    · intro v lvl rest _ hpf _
      exact absurd hpf (by have := pfuel_pos v; omega)
    · intro e es lvl rest _ _ hq
      exact absurd hq (by simp only [pelems]; omega)
    · intro k v ms acc lvl rest _ _ hr
      exact absurd hr (by simp only [pmems]; omega)
  | succ f ih =>
    obtain ⟨ihP, ihQ, ihR⟩ := ih
    refine ⟨?_, ?_, ?_⟩
    · intro v lvl rest hwf hpf hnum
      cases v with
      | null => exact rfl
      | bool b =>
        cases b with
        | true => exact rfl
        | false => exact rfl
      | num n =>
        obtain ⟨c, cs, hshape, hcase⟩ := intChars_shape n
        show parseVal (f + 1) (intChars n ++ rest) = some (JVal.num n, rest)
        rw [hshape, List.cons_append, parseVal_eq_parseNum f c (cs ++ rest) hcase,
          ← List.cons_append, ← hshape]
        exact parseNum_intChars n rest hnum
      | str s =>
        show (parseStr ((escBody s.data ++ ['"']) ++ rest)).map
            (fun p : List Char × List Char => (JVal.str (String.mk p.1), p.2))
          = some (JVal.str s, rest)
        rw [List.append_assoc, List.singleton_append, parseStr_escBody s.data rest]
        rfl
      | arr es =>
        cases es with
        | nil => exact rfl
        | cons e es =>
          simp only [jwf, jwfList, Bool.and_eq_true] at hwf
          simp only [pfuel] at hpf
          have hq : pelems (e :: es) ≤ f := by omega
          obtain ⟨c, t, hh, hws, hbr, _⟩ := dumpVal_head e (lvl + 1)
          have hY : skipWs ('\n' :: (spaces (2 * (lvl + 1)) ++ (dumpVal e (lvl + 1) ++
              (dumpTailElems es (lvl + 1) ++ '\n' :: (spaces (2 * lvl) ++ ']' :: rest)))))
              = c :: (t ++ (dumpTailElems es (lvl + 1) ++
                '\n' :: (spaces (2 * lvl) ++ ']' :: rest))) := by
            rw [skipWs_cons_ws (by decide), skipWs_spaces, hh, List.cons_append,
              skipWs_cons_not hws]
          simp only [dumpVal, List.cons_append, List.append_assoc, List.singleton_append,
            List.nil_append]
          rw [parseVal_lbrack_nonempty f _ c _ hY hbr, ← List.cons_append, ← hh,
            ihQ e es lvl rest hwf.1 hwf.2 hq]
          rfl
      | obj fs =>
        cases fs with
        | nil => exact rfl
        | cons m ms =>
          obtain ⟨k, v2⟩ := m
          simp only [jwf, jwfFields, Bool.and_eq_true] at hwf
          simp only [pfuel] at hpf
          have hr : pmems ((k, v2) :: ms) ≤ f := by omega
          obtain ⟨t0, hm⟩ := dumpMember_head (k, v2) (lvl + 1)
          have hY : skipWs ('\n' :: (spaces (2 * (lvl + 1)) ++ (dumpMember (k, v2) (lvl + 1) ++
              (dumpTailMembers ms (lvl + 1) ++ '\n' :: (spaces (2 * lvl) ++ '\x7d' :: rest)))))
              = '"' :: (t0 ++ (dumpTailMembers ms (lvl + 1) ++
                '\n' :: (spaces (2 * lvl) ++ '\x7d' :: rest))) := by
            rw [skipWs_cons_ws (by decide), skipWs_spaces, hm, List.cons_append,
              skipWs_cons_not (by decide)]
          simp only [dumpVal, List.cons_append, List.append_assoc, List.singleton_append,
            List.nil_append]
          rw [parseVal_lbrace_nonempty f _ '"' _ hY (by decide), ← List.cons_append, ← hm,
            ihR k v2 ms [] lvl rest hwf.2.1 hwf.2.2 hr]
          have hnodup : (((k, v2) :: ms).map Prod.fst).Nodup := of_decide_eq_true hwf.1
          have hfold : ((k, v2) :: ms).foldl (fun a p => alinsert a p.1 p.2)
              ([] : alist JVal) = (k, v2) :: ms := by
            have h := alupdate_eq_append ([] : alist JVal) ((k, v2) :: ms)
              (by simpa using hnodup)
            simpa [alupdate] using h
          rw [hfold]
          rfl
    · intro e es lvl rest he hes hq
      have hpe : pfuel e ≤ f := by simp only [pelems] at hq; omega
      cases es with
      | nil =>
        simp only [dumpTailElems, List.nil_append]
        have hp := ihP e (lvl + 1) ('\n' :: (spaces (2 * lvl) ++ ']' :: rest)) he hpe
          (numSafe_newline _)
        have hws : skipWs ('\n' :: (spaces (2 * lvl) ++ ']' :: rest)) = ']' :: rest := by
          rw [skipWs_cons_ws (by decide), skipWs_spaces, skipWs_cons_not (by decide)]
        rw [parseElems_step f _ e _ ']' rest hp hws, if_neg (by decide), if_pos rfl]
      | cons e2 es2 =>
        simp only [jwfList, Bool.and_eq_true] at hes
        have hq2 : pelems (e2 :: es2) ≤ f := by
          simp only [pelems] at hq ⊢
          omega
        simp only [dumpTailElems, List.cons_append, List.append_assoc]
        have hp := ihP e (lvl + 1) (',' :: '\n' :: (spaces (2 * (lvl + 1)) ++
            (dumpVal e2 (lvl + 1) ++ (dumpTailElems es2 (lvl + 1) ++
              '\n' :: (spaces (2 * lvl) ++ ']' :: rest))))) he hpe (numSafe_comma _)
        rw [parseElems_step f _ e _ ',' _ hp (skipWs_cons_not (by decide) _), if_pos rfl]
        have hskip : skipWs ('\n' :: (spaces (2 * (lvl + 1)) ++ (dumpVal e2 (lvl + 1) ++
            (dumpTailElems es2 (lvl + 1) ++ '\n' :: (spaces (2 * lvl) ++ ']' :: rest)))))
            = dumpVal e2 (lvl + 1) ++ (dumpTailElems es2 (lvl + 1) ++
              '\n' :: (spaces (2 * lvl) ++ ']' :: rest)) := by
          rw [skipWs_cons_ws (by decide), skipWs_spaces, skipWs_dumpVal]
        rw [hskip, ihQ e2 es2 lvl rest hes.1 hes.2 hq2]
    · intro k v ms acc lvl rest hv hms hr
      have hpv : pfuel v ≤ f := by simp only [pmems] at hr; omega
      have hnumR3 : numSafe (dumpTailMembers ms (lvl + 1) ++
          '\n' :: (spaces (2 * lvl) ++ '\x7d' :: rest)) := by
        cases ms with
        | nil =>
          simp only [dumpTailMembers, List.nil_append]
          exact numSafe_newline _
        | cons m2 ms2 =>
          simp only [dumpTailMembers, List.cons_append]
          exact numSafe_comma _
      have hstr := parseStr_escBody k.data (':' :: ' ' :: (dumpVal v (lvl + 1) ++
        (dumpTailMembers ms (lvl + 1) ++ '\n' :: (spaces (2 * lvl) ++ '\x7d' :: rest))))
      have hval : parseVal f (skipWs (' ' :: (dumpVal v (lvl + 1) ++
          (dumpTailMembers ms (lvl + 1) ++ '\n' :: (spaces (2 * lvl) ++ '\x7d' :: rest)))))
          = some (v, dumpTailMembers ms (lvl + 1) ++
            '\n' :: (spaces (2 * lvl) ++ '\x7d' :: rest)) := by
        rw [skipWs_cons_ws (by decide), skipWs_dumpVal]
        exact ihP v (lvl + 1) _ hv hpv hnumR3
      simp only [dumpMember, dumpStr, List.cons_append, List.append_assoc,
        List.singleton_append]
      cases ms with
      | nil =>
        simp only [dumpTailMembers, List.nil_append] at hstr hval ⊢
        have hws2 : skipWs ('\n' :: (spaces (2 * lvl) ++ '\x7d' :: rest))
            = '\x7d' :: rest := by
          rw [skipWs_cons_ws (by decide), skipWs_spaces, skipWs_cons_not (by decide)]
        rw [parseMembers_full f acc _ k.data _ hstr _ (skipWs_cons_not (by decide) _)
          v _ hval '\x7d' rest hws2]
        rw [if_neg (by decide), if_pos rfl]
        rfl
      | cons m2 ms2 =>
        obtain ⟨k2, v2'⟩ := m2
        simp only [jwfFields, Bool.and_eq_true] at hms
        have hr2 : pmems ((k2, v2') :: ms2) ≤ f := by
          simp only [pmems] at hr ⊢
          omega
        simp only [dumpTailMembers, List.cons_append, List.append_assoc,
          List.nil_append] at hstr hval ⊢
        have hws2 : skipWs (',' :: '\n' :: (spaces (2 * (lvl + 1)) ++
            (dumpMember (k2, v2') (lvl + 1) ++ (dumpTailMembers ms2 (lvl + 1) ++
              '\n' :: (spaces (2 * lvl) ++ '\x7d' :: rest)))))
            = ',' :: ('\n' :: (spaces (2 * (lvl + 1)) ++
              (dumpMember (k2, v2') (lvl + 1) ++ (dumpTailMembers ms2 (lvl + 1) ++
                '\n' :: (spaces (2 * lvl) ++ '\x7d' :: rest))))) :=
          skipWs_cons_not (by decide) _
        rw [parseMembers_full f acc _ k.data _ hstr _ (skipWs_cons_not (by decide) _)
          v _ hval ',' _ hws2]
        rw [if_pos rfl]
        obtain ⟨t2, hm2⟩ := dumpMember_head (k2, v2') (lvl + 1)
        have hskip4 : skipWs ('\n' :: (spaces (2 * (lvl + 1)) ++
            (dumpMember (k2, v2') (lvl + 1) ++ (dumpTailMembers ms2 (lvl + 1) ++
              '\n' :: (spaces (2 * lvl) ++ '\x7d' :: rest)))))
            = dumpMember (k2, v2') (lvl + 1) ++ (dumpTailMembers ms2 (lvl + 1) ++
              '\n' :: (spaces (2 * lvl) ++ '\x7d' :: rest)) := by
          rw [skipWs_cons_ws (by decide), skipWs_spaces, hm2, List.cons_append,
            skipWs_cons_not (by decide)]
        rw [hskip4, ihR k2 v2' ms2 (alinsert acc (String.mk k.data) v) lvl rest
          hms.1 hms.2 hr2]
        rfl

theorem parse_roundtrip (v : JVal) (hwf : jwf v = true) :
    parseJson (dumps v) = some v := by
  have hskip : skipWs (dumps v).data = dumpVal v 0 := by
    have h := skipWs_dumpVal v 0 []
    rw [List.append_nil] at h
    exact h
  have hP := (parse_dump_aux ((dumpVal v 0).length + 1)).1 v 0 [] hwf
    (pfuel_le_dump v 0) numSafe_nil
  rw [List.append_nil] at hP
  unfold parseJson
  rw [hskip, hP]
  rfl

/-- C8: for every snapshot object whose `players` field is a mapping from
player-name strings to job-code strings, `save_state` followed immediately
by `load_state` yields a state whose `players` mapping equals the one that
was saved. -/
theorem c8_save_load_roundtrip (fields pf : alist JVal)
    (hwf : jwf (JVal.obj fields) = true)
    (hp : alget fields "players" = some (JVal.obj pf))
    (hstr : ∀ p ∈ pf, ∃ s, p.2 = JVal.str s) :
    jTopGet (load_state (some (save_state (JVal.obj fields)))) "players"
      = some (JVal.obj pf) := by
  show jTopGet ((parseJson (dumps (JVal.obj fields))).getD (JVal.obj [])) "players"
    = some (JVal.obj pf)
  rw [parse_roundtrip _ hwf]
  exact hp

theorem c8_save_load_roundtrip_witness :
    jTopGet (load_state (some (save_state (JVal.obj
        [("players", JVal.obj [("Alice", JVal.str "220")]),
         ("last_run_source", JVal.str "online")])))) "players"
      = some (JVal.obj [("Alice", JVal.str "220")]) :=
  c8_save_load_roundtrip
    [("players", JVal.obj [("Alice", JVal.str "220")]),
     ("last_run_source", JVal.str "online")]
    [("Alice", JVal.str "220")]
    (by decide) rfl
    (by
      intro p hp
      simp only [List.mem_singleton] at hp
      subst hp
      exact ⟨"220", rfl⟩)

end Monitor
